import Mathlib

/-! # Packing list / asset map generator (main.go)

A shallow embedding of `main.go`: the registry pass (`iterate`), the hasher
(`findHashValue`), the two document builders (`createPackingList`,
`createAssetmap`) and `main`, over a model of the pieces of the Go standard
library they call (`path/filepath`, `os`, `strconv`, `crypto/sha1`,
`encoding/hex`).

Conventions of the model
* a directory tree is a `Node`; the entries of a directory are held in the
  order `readDirNames` returns them (sorted by name);
* `uuid.New().String()` is the next value of a stream `uuidNew : Nat → String`;
  the number of values drawn so far is threaded through the state;
* the clock, the MIME table and the XML marshaller are parameters (`Env`);
* SHA-1 is given twice: as the Go code computes it (`sha1Sum`) and as
  FIPS 180-4 defines it (`sha1Spec`); the two are proved equal.
-/

namespace Manifest

set_option maxRecDepth 100000

/-! ## Bytes and paths -/

/-- A byte. -/
abbrev Byte := Fin 256

/-- The part of `p` after its last separator (all of `p` when it has none). -/
def lastElem (p : List Char) : List Char :=
  (p.reverse.takeWhile (fun c => c ≠ '/')).reverse

/-- Remove every trailing separator. -/
def stripTrailing (p : List Char) : List Char :=
  (p.reverse.dropWhile (fun c => c = '/')).reverse

/-- Go `filepath.Base` (Unix): the last element of the path, trailing
separators removed first; `"."` for the empty path, `"/"` for a path of
separators only. -/
def Base (path : String) : String :=
  if path = "" then "."
  else
    let p := lastElem (stripTrailing path.data)
    if p = [] then "/" else ⟨p⟩

/-- Go `filepath.Ext`: the suffix of the last element starting at its final
dot, empty when the last element has no dot. -/
def Ext (path : String) : String :=
  let seg := lastElem path.data
  if '.' ∈ seg then ⟨'.' :: (seg.reverse.takeWhile (fun c => c ≠ '.')).reverse⟩ else ""

/-- Go `os.basename` (Unix), the `Name()` of the `FileInfo` that `os.Lstat`
returns: trailing separators removed (but never the first byte), then the
leading directory name removed. -/
def osBasename (name : String) : String :=
  match name.data with
  | [] => ""
  | c :: rest =>
    let rest1 := stripTrailing rest
    if rest1 = [] then ⟨[c]⟩ else ⟨lastElem (c :: rest1)⟩

/-- The `..` step of `filepath.Clean`: `out.w--`, then `out.w--` while
`out.w > dotdot` and the byte at `out.w` is not a separator. The argument is
the write index after the first decrement; the result is the final one. -/
def backtrackLen (out : List Char) (dotdot : Nat) : Nat → Nat
  | 0 => 0
  | w + 1 =>
    if dotdot < w + 1 ∧ out.get? (w + 1) ≠ some '/' then backtrackLen out dotdot w
    else w + 1

/-- The main loop of `filepath.Clean`: `path` is what remains to be read,
`out` the buffer written so far, `dotdot` the index where `..` must stop.
Every round reads at least one byte, so `fuel = length of path` suffices. -/
def cleanLoop (rooted : Bool) : Nat → List Char → List Char → Nat → List Char
  | 0, _, out, _ => out
  | fuel + 1, path, out, dotdot =>
    match path with
    | [] => out
    | c :: rest =>
      if c = '/' then
        cleanLoop rooted fuel rest out dotdot
      else if c = '.' ∧ (rest = [] ∨ rest.head? = some '/') then
        cleanLoop rooted fuel rest out dotdot
      else if c = '.' ∧ rest.head? = some '.' ∧
          (rest.tail = [] ∨ rest.tail.head? = some '/') then
        if dotdot < out.length then
          cleanLoop rooted fuel rest.tail
            (out.take (backtrackLen out dotdot (out.length - 1))) dotdot
        else if rooted = false then
          let out1 := (if 0 < out.length then out ++ ['/'] else out) ++ ['.', '.']
          cleanLoop rooted fuel rest.tail out1 out1.length
        else
          cleanLoop rooted fuel rest.tail out dotdot
      else
        let out1 :=
          if (rooted = true ∧ out.length ≠ 1) ∨ (rooted = false ∧ out.length ≠ 0)
          then out ++ ['/'] else out
        cleanLoop rooted fuel (rest.dropWhile (fun d => d ≠ '/'))
          (out1 ++ c :: rest.takeWhile (fun d => d ≠ '/')) dotdot

/-- Go `filepath.Clean` (Unix, no volume name). -/
def Clean (path : String) : String :=
  match path.data with
  | [] => "."
  | c :: rest =>
    let out :=
      if c = '/' then cleanLoop true rest.length rest ['/'] 1
      else cleanLoop false (rest.length + 1) (c :: rest) [] 0
    if out = [] then "." else ⟨out⟩

/-- Go `filepath.Join` of two elements: empty elements are ignored, the rest
joined by a separator and cleaned. -/
def Join (a b : String) : String :=
  if a ≠ "" then Clean (a ++ "/" ++ b)
  else if b ≠ "" then Clean b
  else ""

/-! ## SHA-1 and hexadecimal encoding -/

/-- Addition of `uint32` values. -/
def add32 (a b : Nat) : Nat := (a + b) % 2 ^ 32

/-- Go `bits.RotateLeft32`. -/
def rotateLeft32 (x k : Nat) : Nat := ((x <<< k) ||| (x >>> (32 - k))) % 2 ^ 32

/-- Bitwise complement of a `uint32`. -/
def not32 (x : Nat) : Nat := (x % 2 ^ 32) ^^^ 0xFFFFFFFF

/-- Big-endian bytes of a value, `n` bytes wide. -/
def bigEndian : Nat → Nat → List Nat
  | 0, _ => []
  | n + 1, x => (x / 256 ^ n) % 256 :: bigEndian n x

/-- The padding `checkSum` writes after a message of `len` bytes: `0x80`,
zeros up to 56 bytes mod 64, then the length in bits as a big-endian
`uint64`. -/
def sha1Padding (len : Nat) : List Nat :=
  let t := if len % 64 < 56 then 56 - len % 64 else 64 + 56 - len % 64
  0x80 :: List.replicate (t - 1) 0 ++ bigEndian 8 ((len * 8) % 2 ^ 64)

/-- The sixteen big-endian words of a 64-byte chunk. -/
def chunkWords (p : List Nat) : List Nat :=
  (List.range 16).map fun i =>
    (p.getD (4 * i) 0 <<< 24) ||| (p.getD (4 * i + 1) 0 <<< 16) |||
      (p.getD (4 * i + 2) 0 <<< 8) ||| p.getD (4 * i + 3) 0

/-- The message schedule: word `i ≥ 16` is the rotation by one of
`w[i-3] ^ w[i-8] ^ w[i-14] ^ w[i-16]`. The argument holds the words computed
so far, most recent first. -/
def extendSchedule : Nat → List Nat → List Nat
  | 0, w => w
  | n + 1, w =>
    extendSchedule n
      (rotateLeft32 (w.getD 2 0 ^^^ w.getD 7 0 ^^^ w.getD 13 0 ^^^ w.getD 15 0) 1 :: w)

/-- The eighty words of the schedule, in order. -/
def schedule (p : List Nat) : List Nat :=
  (extendSchedule 64 (chunkWords p).reverse).reverse

/-- The working variables `a, b, c, d, e`. -/
structure Vars where
  a : Nat
  b : Nat
  c : Nat
  d : Nat
  e : Nat
deriving DecidableEq

/-- One round: `f` and the constant depend on the round index. -/
def sha1Round (v : Vars) (i w : Nat) : Vars :=
  let f :=
    if i < 20 then (v.b &&& v.c) ||| (not32 v.b &&& v.d)
    else if i < 40 then v.b ^^^ v.c ^^^ v.d
    else if i < 60 then ((v.b ||| v.c) &&& v.d) ||| (v.b &&& v.c)
    else v.b ^^^ v.c ^^^ v.d
  let k :=
    if i < 20 then 0x5A827999
    else if i < 40 then 0x6ED9EBA1
    else if i < 60 then 0x8F1BBCDC
    else 0xCA62C1D6
  let t := add32 (add32 (add32 (add32 (rotateLeft32 v.a 5) f) v.e) w) k
  ⟨t, v.a, rotateLeft32 v.b 30, v.c, v.d⟩

/-- The eighty rounds over a schedule, round index counted from `i`. -/
def sha1Rounds : List Nat → Nat → Vars → Vars
  | [], _, v => v
  | w :: ws, i, v => sha1Rounds ws (i + 1) (sha1Round v i w)

/-- Go `blockGeneric` on one 64-byte chunk. -/
def sha1Block (h : Vars) (p : List Nat) : Vars :=
  let v := sha1Rounds (schedule p) 0 h
  ⟨add32 h.a v.a, add32 h.b v.b, add32 h.c v.c, add32 h.d v.d, add32 h.e v.e⟩

/-- Go `blockGeneric`: consume the data chunk by chunk (`fuel` bounds the
number of chunks). -/
def sha1Blocks : Nat → Vars → List Nat → Vars
  | 0, h, _ => h
  | fuel + 1, h, p =>
    if 64 ≤ p.length then sha1Blocks fuel (sha1Block h (p.take 64)) (p.drop 64) else h

/-- The initial hash value. -/
def sha1Init : Vars := ⟨0x67452301, 0xEFCDAB89, 0x98BADCFE, 0x10325476, 0xC3D2E1F0⟩

/-- SHA-1 of a byte string: the 20-byte digest (`sha1.New`, `Write`, `Sum`). -/
def sha1Sum (msg : List Byte) : List Nat :=
  let data := msg.map (fun b => b.val) ++ sha1Padding msg.length
  let h := sha1Blocks (data.length / 64) sha1Init data
  bigEndian 4 h.a ++ bigEndian 4 h.b ++ bigEndian 4 h.c ++ bigEndian 4 h.d ++ bigEndian 4 h.e

/-- The digit of `hex.EncodeToString` for a value below sixteen. -/
def hexDigit (n : Nat) : Char := "0123456789abcdef".data.getD n '0'

/-- Go `hex.EncodeToString`: two lowercase digits per byte, high nibble first. -/
def hexEncode (bs : List Nat) : String :=
  ⟨bs.flatMap fun b => [hexDigit (b / 16 % 16), hexDigit (b % 16)]⟩


/-! ## strconv.FormatInt -/

/-- The digit table of `strconv`. -/
def digitChar (d : Nat) : Char := "0123456789".data.getD d '0'

/-- Go `formatBits` in base ten: digits are produced from the least
significant one and written in front of `acc`. One round per digit, so
`fuel = u + 1` suffices. -/
def formatBits : Nat → Nat → List Char → List Char
  | 0, _, acc => acc
  | fuel + 1, u, acc =>
    if u < 10 then digitChar u :: acc
    else formatBits fuel (u / 10) (digitChar (u % 10) :: acc)

/-- Go `strconv.FormatInt(i, 10)`. -/
def FormatInt (i : Int) : String :=
  if i < 0 then ⟨'-' :: formatBits (i.natAbs + 1) i.natAbs []⟩
  else ⟨formatBits (i.toNat + 1) i.toNat []⟩

/-! ## The directory tree -/

mutual
/-- What a path names. `broken` is an entry on which `os.Lstat` fails. -/
inductive Node where
  /-- A regular file: the size in its metadata, and the bytes read from it
  (`none` when it cannot be opened). -/
  | file (size : Int) (content : Option (List Byte))
  /-- Neither a regular file nor a directory (symlink, device, socket). -/
  | other
  /-- A directory; `readable = false` when listing it fails. -/
  | dir (readable : Bool) (entries : Entries)
  /-- An entry that is listed but cannot be examined. -/
  | broken
/-- The entries of a directory, in the order `readDirNames` returns them. -/
inductive Entries where
  | nil
  | cons (name : String) (node : Node) (rest : Entries)
end

/-- The part of `os.FileInfo` the program reads, together with the bytes
`os.Open` and `io.Copy` get from the file the walk is visiting (`none`: the
open fails). -/
structure FileInfo where
  Name : String
  IsDir : Bool
  IsRegular : Bool
  Size : Int
  content : Option (List Byte)
deriving DecidableEq

/-- The `FileInfo` of `os.Lstat` on a node reached under the name `name`. The
program reads the size of regular files only; the others are given `0`. -/
def Node.info (name : String) : Node → Option FileInfo
  | .file size content => some ⟨name, false, true, size, content⟩
  | .other => some ⟨name, false, false, 0, none⟩
  | .dir _ _ => some ⟨name, true, false, 0, none⟩
  | .broken => none

/-! ## filepath.Walk -/

/-- A `filepath.WalkFunc` acting on a state: it receives the path, the
`FileInfo` (absent when `Lstat` failed) and whether an error is reported, and
returns the new state and whether it returned a non-nil error. (No callback
of this program returns `SkipDir`.) -/
abbrev WalkFunc (σ : Type) := σ → String → Option FileInfo → Bool → σ × Bool

mutual
/-- Go `filepath.walk`, with the `Lstat` failure of the caller folded in as
the `broken` case. The result is the state and whether an error is returned. -/
def walk {σ : Type} (walkFn : WalkFunc σ) (path name : String) : Node → σ → σ × Bool
  | .broken, s => walkFn s path none true
  | .file size content, s => walkFn s path (Node.info name (.file size content)) false
  | .other, s => walkFn s path (Node.info name .other) false
  | .dir readable entries, s =>
    let r := walkFn s path (Node.info name (.dir readable entries)) (!readable)
    if !readable || r.2 then r else walkEntries walkFn path entries r.1
/-- The `for _, name := range names` loop of `filepath.walk`. -/
def walkEntries {σ : Type} (walkFn : WalkFunc σ) (path : String) : Entries → σ → σ × Bool
  | .nil, s => (s, false)
  | .cons name node rest, s =>
    let r := walk walkFn (Join path name) name node s
    if r.2 then r else walkEntries walkFn path rest r.1
end

/-- What `os.Lstat(root)` finds: nothing for the empty path. -/
def Lstat (root : String) (tree : Node) : Node :=
  if root = "" then .broken else tree

/-- Go `filepath.Walk` on the tree that `root` names. -/
def Walk {σ : Type} (walkFn : WalkFunc σ) (root : String) (tree : Node) (s : σ) : σ × Bool :=
  walk walkFn root (osBasename root) (Lstat root tree) s

/-! ## The documents -/

/-- The struct `Asset` (`XMLName` left out, as in all the structs below). -/
structure Asset where
  Id : String
  AnnotationText : String
  Hash : String
  Size : String
  /-- The field `Type` of the source (`Type` is a keyword here). -/
  MimeType : String
deriving DecidableEq

/-- The struct `AssetList`. -/
structure AssetList where
  Assets : List Asset
deriving DecidableEq

/-- The struct `PackingList`. -/
structure PackingList where
  XMLNS : String
  Id : String
  AnnotationText : String
  IssueDate : String
  Issuer : String
  Creator : String
  AssetList : AssetList
deriving DecidableEq

/-- The struct `Chunk`. -/
structure Chunk where
  Path : String
deriving DecidableEq

/-- The struct `ChunkList`. -/
structure ChunkList where
  Chunk : List Chunk
deriving DecidableEq

/-- The struct `AMAsset`. -/
structure AMAsset where
  Id : String
  AnnotationText : String
  ChunkList : ChunkList
deriving DecidableEq

/-- The struct `AMAssetList`. -/
structure AMAssetList where
  Assets : List AMAsset
deriving DecidableEq

/-- The struct `AssetMap`. -/
structure AssetMap where
  XMLNS : String
  Id : String
  AnnotationText : String
  Creator : String
  VolumeCount : String
  IssueDate : String
  Issuer : String
  AssetList : AMAssetList
deriving DecidableEq

/-! ## The registry -/

/-- The Go `map[string]string` holding the identifiers, as the list of the
assignments made, latest first: a lookup finds the latest value of a key. -/
abbrev Registry := List (String × String)

/-- Go `m[k]`: the empty string for a missing key. -/
def Registry.get (m : Registry) (k : String) : String := (m.lookup k).getD ""

/-- Go `m[k] = v`. -/
def Registry.set (m : Registry) (k v : String) : Registry := (k, v) :: m

/-- What the program takes from outside: the identifier generator, the clock,
the MIME table and the XML marshaller. -/
structure Env where
  /-- The `n`-th value returned by `uuid.New().String()`. -/
  uuidNew : Nat → String
  /-- The formatted `time.Now()` seen by `createPackingList`. -/
  issueDatePKL : String
  /-- The formatted `time.Now()` seen by `createAssetmap`. -/
  issueDateAM : String
  /-- Go `mime.TypeByExtension`. -/
  typeByExtension : String → String
  /-- Go `xml.MarshalIndent` on a packing list. -/
  marshalPackingList : PackingList → List Byte
  /-- Go `xml.MarshalIndent` on an asset map. -/
  marshalAssetMap : AssetMap → List Byte

/-! ## iterate -/

/-- The global `myMap`, the number of identifiers drawn so far, and whether
`log.Fatalf` has ended the process. -/
structure IterState where
  myMap : Registry
  drawn : Nat
  fatal : Bool
deriving DecidableEq

/-- The callback of `iterate`. `log.Fatalf` ends the process: the state is
marked and the walk is stopped. (The walk passes no `FileInfo` only together
with an error, `visits_info_none`; calling `file.Name()` on none would end
the process as well.) -/
def iterateFn (env : Env) : WalkFunc IterState :=
  fun s _ file err =>
    if err then ({ s with fatal := true }, true)
    else
      match file with
      | none => ({ s with fatal := true }, true)
      | some info =>
        ({ s with myMap := s.myMap.set info.Name (env.uuidNew s.drawn), drawn := s.drawn + 1 },
          false)

/-- Go `iterate`. -/
def iterate (env : Env) (userFolderName : String) (tree : Node) (s : IterState) : IterState :=
  (Walk (iterateFn env) userFolderName tree s).1

/-! ## findHashValue -/

/-- Go `findHashValue`, on what opening and reading the path yields. When the
open fails the error is printed, nothing is written to the hash, and the
digest of the empty input is returned. -/
def findHashValue (content : Option (List Byte)) : String :=
  hexEncode (sha1Sum (content.getD []))

/-! ## createPackingList -/

/-- The `Asset` literal built for a regular file (lines 125-132). -/
def pklAsset (env : Env) (folderPath : String) (uuidCommon : Registry)
    (path : String) (info : FileInfo) : Asset :=
  let fileName := Base path
  { Id := "urn:uuid:" ++ uuidCommon.get fileName
    AnnotationText := Base folderPath
    Hash := findHashValue info.content
    Size := FormatInt info.Size
    MimeType := env.typeByExtension (Ext path) }

/-- The callback of the walk in `createPackingList`: an error is returned as
it is, a regular file adds its asset. (The case of no `FileInfo` and no error
is not reached, `visits_info_none`.) -/
def pklFn (env : Env) (folderPath : String) (uuidCommon : Registry) : WalkFunc (List Asset) :=
  fun assets path info err =>
    if err then (assets, true)
    else
      match info with
      | none => (assets, false)
      | some info =>
        if info.IsRegular then (assets ++ [pklAsset env folderPath uuidCommon path info], false)
        else (assets, false)

/-- The `PackingList` value `createPackingList` marshals. -/
def packingList (env : Env) (folderPath : String) (uuidCommon : Registry) (tree : Node) :
    PackingList :=
  let assets := (Walk (pklFn env folderPath uuidCommon) folderPath tree []).1
  { XMLNS := "http://www.smpte-ra.org/schemas/429-8/2007/PKL"
    Id := "urn:uuid:" ++ uuidCommon.get "UUID"
    AnnotationText := Base folderPath
    IssueDate := env.issueDatePKL
    Issuer := "Qube Cinema"
    Creator := "Qube"
    AssetList := { Assets := assets } }

/-- Byte-wise order of names, the order of `sort.Strings`. -/
def nameLt (a b : String) : Bool := decide (a.data < b.data)

/-- A regular file holding `content`. -/
def newFile (content : List Byte) : Node := .file content.length (some content)

/-- The entries of a directory after `os.Create` of `name` in it: an existing
regular file is truncated and rewritten, a new one is listed at its place in
the order of names; `none` when the name is taken by a directory or cannot be
examined. An entry that is not a regular file or directory is left as it is. -/
def Entries.create (name : String) (content : List Byte) : Entries → Option Entries
  | .nil => some (.cons name (newFile content) .nil)
  | .cons n node rest =>
    if n = name then
      match node with
      | .file _ _ => some (.cons n (newFile content) rest)
      | .other => some (.cons n node rest)
      | .dir _ _ => none
      | .broken => none
    else if nameLt name n then some (.cons name (newFile content) (.cons n node rest))
    else (Entries.create name content rest).map (Entries.cons n node)

/-- Go `os.Create(filepath.Join(folderPath, name))` followed by the writes,
on the tree `folderPath` names; `none` when the create fails. -/
def createFile (name : String) (content : List Byte) : Node → Option Node
  | .dir readable entries => (entries.create name content).map (Node.dir readable)
  | _ => none

/-- The bytes of a string of ASCII characters. -/
def asciiBytes (s : String) : List Byte := s.data.map fun c => Fin.ofNat c.toNat

/-- Go `xml.Header`. -/
def xmlHeader : List Byte := asciiBytes "<?xml version=\"1.0\" encoding=\"UTF-8\"?>\n"

/-- Go `createPackingList`: the document and the tree after
`Packinglist.xml` is written; `none` when `os.Create` fails (panic). -/
def createPackingList (env : Env) (folderPath : String) (uuidCommon : Registry)
    (tree : Node) : Option (PackingList × Node) :=
  let doc := packingList env folderPath uuidCommon tree
  match createFile "Packinglist.xml" (xmlHeader ++ env.marshalPackingList doc) tree with
  | none => none
  | some tree1 => some (doc, tree1)

/-! ## createAssetmap -/

/-- The `AMAsset` literal built for a regular file (lines 176-185). -/
def amAsset (folderPath : String) (uuidCommon : Registry)
    (path : String) (info : FileInfo) : AMAsset :=
  let fileName := Base path
  { Id := "urn:uuid:" ++ uuidCommon.get fileName
    AnnotationText := Base folderPath
    ChunkList := { Chunk := [{ Path := info.Name }] } }

/-- The callback of the walk in `createAssetmap`: an error is returned as it
is, a regular file adds its asset. (The case of no `FileInfo` and no error is
not reached, `visits_info_none`.) -/
def amFn (folderPath : String) (uuidCommon : Registry) : WalkFunc (List AMAsset) :=
  fun assets path info err =>
    if err then (assets, true)
    else
      match info with
      | none => (assets, false)
      | some info =>
        if info.IsRegular then (assets ++ [amAsset folderPath uuidCommon path info], false)
        else (assets, false)

/-- The `AssetMap` value `createAssetmap` marshals. -/
def assetMap (env : Env) (folderPath : String) (uuidCommon : Registry) (tree : Node) :
    AssetMap :=
  let assets := (Walk (amFn folderPath uuidCommon) folderPath tree []).1
  { XMLNS := "http://www.smpte-ra.org/schemas/429-9/2007/AM"
    Id := "urn:uuid:" ++ uuidCommon.get "UUID"
    AnnotationText := Base folderPath
    Creator := "Qube"
    VolumeCount := "1"
    IssueDate := env.issueDateAM
    Issuer := "Qube Cinema"
    AssetList := { Assets := assets } }

/-- Go `createAssetmap`: the document and the tree after `assetmap.xml` is
written; `none` when `os.Create` fails (panic). -/
def createAssetmap (env : Env) (folderPath : String) (uuidCommon : Registry)
    (tree : Node) : Option (AssetMap × Node) :=
  let doc := assetMap env folderPath uuidCommon tree
  match createFile "assetmap.xml" (xmlHeader ++ env.marshalAssetMap doc) tree with
  | none => none
  | some tree1 => some (doc, tree1)

/-! ## main -/

/-- How a run of `main` ends. -/
inductive Outcome where
  /-- `os.Stat` failed. -/
  | statError
  /-- "your directory is empty". -/
  | emptyDir
  /-- `log.Fatalf` in `iterate`. -/
  | fatal
  /-- Panic in `createPackingList`. -/
  | panicPackingList
  /-- Panic in `createAssetmap`; the packing list has been written. -/
  | panicAssetmap (pkl : PackingList)
  /-- Both documents written. -/
  | done (pkl : PackingList) (am : AssetMap)
deriving DecidableEq

/-- The observable result of a run: how it ended, the tree it leaves, the
global map, the number of identifiers drawn and the functions `main` called,
in order. -/
structure Run where
  outcome : Outcome
  tree : Node
  myMap : Registry
  drawn : Nat
  calls : List String

/-- Go `f.Readdirnames(1)` after `os.Open`: whether a name comes back. Any
failure (not a directory, not listable) leaves the slice empty. -/
def hasEntry : Node → Bool
  | .dir true (.cons _ _ _) => true
  | _ => false

/-- Whether `os.Stat` returns an error. -/
def statFails : Node → Bool
  | .broken => true
  | _ => false

/-- Go `main`, on the path typed in and the tree it names. -/
def main (env : Env) (userFolderName : String) (tree : Node) : Run :=
  if statFails (Lstat userFolderName tree) then ⟨.statError, tree, [], 0, []⟩
  else if hasEntry (Lstat userFolderName tree) = false then ⟨.emptyDir, tree, [], 0, []⟩
  else
    let uuidFile := env.uuidNew 0
    let myMap0 : Registry := Registry.set [] "UUID" uuidFile
    let s := iterate env userFolderName tree ⟨myMap0, 1, false⟩
    if s.fatal then ⟨.fatal, tree, s.myMap, s.drawn, ["iterate"]⟩
    else
      match createPackingList env userFolderName s.myMap tree with
      | none => ⟨.panicPackingList, tree, s.myMap, s.drawn, ["iterate", "createPackingList"]⟩
      | some (pkl, tree1) =>
        match createAssetmap env userFolderName s.myMap tree1 with
        | none =>
          ⟨.panicAssetmap pkl, tree1, s.myMap, s.drawn,
            ["iterate", "createPackingList", "createAssetmap"]⟩
        | some (am, tree2) =>
          ⟨.done pkl am, tree2, s.myMap, s.drawn,
            ["iterate", "createPackingList", "createAssetmap"]⟩

/-! ## Predicates used in the statements -/

/-- A name a directory can list: not empty, no separator, neither `.` nor `..`. -/
def validName (name : String) : Prop :=
  name.data ≠ [] ∧ '/' ∉ name.data ∧ name ≠ "." ∧ name ≠ ".."

instance (name : String) : Decidable (validName name) := by
  unfold validName; infer_instance

/-- The shape of a cleaned path whose last element is `name`. -/
def EndsWithName (name res : List Char) : Prop :=
  ∃ pre, res = pre ++ name ∧ (pre = [] ∨ ∃ q, pre = q ++ ['/'])

/-- What `cleanLoop` keeps true of its buffer when the path is rooted: it
starts with the separator and `..` never goes below index one. -/
def BufOk (rooted : Bool) (out : List Char) (dotdot : Nat) : Prop :=
  rooted = true → 1 ≤ dotdot ∧ ∃ t, out = '/' :: t


mutual
/-- Every name listed in the tree is one a directory can list. -/
def Node.namesValid : Node → Bool
  | .dir _ entries => entries.namesValid
  | _ => true
/-- Every name listed here and below is one a directory can list. -/
def Entries.namesValid : Entries → Bool
  | .nil => true
  | .cons name node rest => decide (validName name) && node.namesValid && rest.namesValid
end

/-! ## The traversal order -/

/-- One call of the walk function: the path, the `FileInfo` and whether an
error is reported for the entry. -/
structure Visit where
  path : String
  info : Option FileInfo
  err : Bool
deriving DecidableEq

mutual
/-- The entries `filepath.walk` presents, in order, as long as the walk
function returns nil: an entry whose `Lstat` fails and a directory that
cannot be listed are presented with an error, and nothing below them is. -/
def visits (path name : String) : Node → List Visit
  | .broken => [⟨path, none, true⟩]
  | .file size content => [⟨path, Node.info name (.file size content), false⟩]
  | .other => [⟨path, Node.info name .other, false⟩]
  | .dir readable entries =>
    ⟨path, Node.info name (.dir readable entries), !readable⟩ ::
      (if readable then visitsEntries path entries else [])
/-- The entries presented for the children of `path`. -/
def visitsEntries (path : String) : Entries → List Visit
  | .nil => []
  | .cons name node rest => visits (Join path name) name node ++ visitsEntries path rest
end

/-- The traversal order of `filepath.Walk(root, ...)`. -/
def Visits (root : String) (tree : Node) : List Visit :=
  visits root (osBasename root) (Lstat root tree)

/-- The walk function applied along a list of entries until it returns an
error. -/
def runVisits {σ : Type} (walkFn : WalkFunc σ) : List Visit → σ → σ × Bool
  | [], s => (s, false)
  | v :: vs, s =>
    let r := walkFn s v.path v.info v.err
    if r.2 then r else runVisits walkFn vs r.1

/-- The entries that come before the first one reported with an error. -/
def beforeError (vs : List Visit) : List Visit := vs.takeWhile fun v => !v.err

/-- The regular files among the entries, with their paths. -/
def regularFiles (vs : List Visit) : List (String × FileInfo) :=
  vs.filterMap fun v =>
    match v.info with
    | some info => if info.IsRegular then some (v.path, info) else none
    | none => none

/-- The name under which an entry was presented. -/
def Visit.name (v : Visit) : String :=
  match v.info with
  | some info => info.Name
  | none => ""

/-! ## Sample inputs -/

/-- A generator whose `n`-th identifier is `n + 1` letters long (never empty,
never repeated), a fixed clock, an empty MIME table and a marshaller writing
nothing. -/
def sampleEnv : Env where
  uuidNew := fun n => ⟨List.replicate (n + 1) 'x'⟩
  issueDatePKL := "2024-01-01T00:00:00+00:00"
  issueDateAM := "2024-01-01T00:00:01+00:00"
  typeByExtension := fun _ => ""
  marshalPackingList := fun _ => []
  marshalAssetMap := fun _ => []

/-- A directory holding `a.txt` (three bytes) and `sub/a.txt` (empty). -/
def sampleTree : Node :=
  .dir true (.cons "a.txt" (.file 3 (some [1, 2, 3]))
    (.cons "sub" (.dir true (.cons "a.txt" (.file 0 (some [])) .nil)) .nil))

/-- A directory holding the single file `a.txt`. -/
def oneFileTree : Node :=
  .dir true (.cons "a.txt" (.file 3 (some [1, 2, 3])) .nil)

/-- A directory whose first entry `a` cannot be examined, followed by the
regular file `b.txt`. -/
def brokenEntryTree : Node :=
  .dir true (.cons "a" .broken (.cons "b.txt" (.file 0 (some [])) .nil))

/-- A directory holding a single file named `UUID`. -/
def uuidFileTree : Node :=
  .dir true (.cons "UUID" (.file 0 (some [])) .nil)

/-- The `Id` of every asset of the packing list a run wrote. -/
def Outcome.packingListIds : Outcome → List String
  | .done pkl _ => pkl.AssetList.Assets.map Asset.Id
  | .panicAssetmap pkl => pkl.AssetList.Assets.map Asset.Id
  | _ => []

/-- The `Id` of every asset of the asset map a run wrote. -/
def Outcome.assetMapIds : Outcome → List String
  | .done _ am => am.AssetList.Assets.map AMAsset.Id
  | _ => []

/-- The chunk paths of every asset of the asset map a run wrote. -/
def Outcome.assetMapPaths : Outcome → List (List String)
  | .done _ am => am.AssetList.Assets.map fun a => a.ChunkList.Chunk.map Chunk.Path
  | _ => []

/-- The root `Id` of the two documents a run wrote. -/
def Outcome.rootIds : Outcome → List String
  | .done pkl am => [pkl.Id, am.Id]
  | _ => []

/-- Reading a string as a decimal integer: digits only, at least one; the
most significant digit comes first. -/
def parseDecimal (s : String) : Option Int :=
  if s.data ≠ [] ∧ s.data.all (fun c => c.isDigit) then
    some (Int.ofNat (s.data.foldl (fun acc c => 10 * acc + (c.toNat - 48)) 0))
  else none

/-- The map after `iterate` has stored a fresh identifier for every entry of
the list, starting from the map `m` with `d` identifiers drawn. -/
def registerAll (env : Env) : List Visit → Registry → Nat → Registry
  | [], m, _ => m
  | v :: vs, m, d => registerAll env vs (m.set v.name (env.uuidNew d)) (d + 1)

/-- The position of the last entry presented under the name `k`. -/
def lastVisit (k : String) : List Visit → Option Nat
  | [] => none
  | v :: vs =>
    match lastVisit k vs with
    | some i => some (i + 1)
    | none => if v.name = k then some 0 else none

/-- The packing list of the run of `main` on the sample tree under the name
`pkg`. -/
def samplePackingList : PackingList where
  XMLNS := "http://www.smpte-ra.org/schemas/429-8/2007/PKL"
  Id := "urn:uuid:x"
  AnnotationText := "pkg"
  IssueDate := "2024-01-01T00:00:00+00:00"
  Issuer := "Qube Cinema"
  Creator := "Qube"
  AssetList :=
    { Assets :=
        [ { Id := "urn:uuid:xxxxx", AnnotationText := "pkg",
            Hash := "7037807198c22a7d2b0807371d763779a84fdfcf", Size := "3", MimeType := "" },
          { Id := "urn:uuid:xxxxx", AnnotationText := "pkg",
            Hash := "da39a3ee5e6b4b0d3255bfef95601890afd80709", Size := "0", MimeType := "" } ] }

/-- The asset map of the run of `main` on the sample tree under the name
`pkg`. -/
def sampleAssetMap : AssetMap where
  XMLNS := "http://www.smpte-ra.org/schemas/429-9/2007/AM"
  Id := "urn:uuid:x"
  AnnotationText := "pkg"
  Creator := "Qube"
  VolumeCount := "1"
  IssueDate := "2024-01-01T00:00:01+00:00"
  Issuer := "Qube Cinema"
  AssetList :=
    { Assets :=
        [ { Id := "urn:uuid:", AnnotationText := "pkg",
            ChunkList := { Chunk := [{ Path := "Packinglist.xml" }] } },
          { Id := "urn:uuid:xxxxx", AnnotationText := "pkg",
            ChunkList := { Chunk := [{ Path := "a.txt" }] } },
          { Id := "urn:uuid:xxxxx", AnnotationText := "pkg",
            ChunkList := { Chunk := [{ Path := "a.txt" }] } } ] }

/-! ## SHA-1 as FIPS 180-4 states it

A second definition of the digest, written from the standard and not from
the Go code: the functions and constants of section 4, the padding and
parsing of section 5, the hash computation of section 6.1. `sha1Sum` above is
proved equal to it (`sha1Sum_eq_sha1Spec`). -/

/-- FIPS 180-4, 4.1.1: `Ch(x, y, z) = (x ∧ y) ⊕ (¬x ∧ z)`. -/
def fipsCh (x y z : Nat) : Nat := (x &&& y) ^^^ (not32 x &&& z)

/-- FIPS 180-4, 4.1.1: `Parity(x, y, z) = x ⊕ y ⊕ z`. -/
def fipsParity (x y z : Nat) : Nat := x ^^^ y ^^^ z

/-- FIPS 180-4, 4.1.1: `Maj(x, y, z) = (x ∧ y) ⊕ (x ∧ z) ⊕ (y ∧ z)`. -/
def fipsMaj (x y z : Nat) : Nat := (x &&& y) ^^^ (x &&& z) ^^^ (y &&& z)

/-- FIPS 180-4, 4.1.1: the function `f_t`. -/
def fipsF (t x y z : Nat) : Nat :=
  if t ≤ 19 then fipsCh x y z
  else if t ≤ 39 then fipsParity x y z
  else if t ≤ 59 then fipsMaj x y z
  else fipsParity x y z

/-- FIPS 180-4, 4.2.1: the constant `K_t`. -/
def fipsK (t : Nat) : Nat :=
  if t ≤ 19 then 0x5a827999
  else if t ≤ 39 then 0x6ed9eba1
  else if t ≤ 59 then 0x8f1bbcdc
  else 0xca62c1d6

/-- The value `x` written on `n` bytes, most significant byte first. -/
def fipsBytes (n x : Nat) : List Nat :=
  (List.range n).map fun i => x / 256 ^ (n - 1 - i) % 256

/-- FIPS 180-4, 5.1.1: the message, the bit `1`, the least number of zero
bits that brings the length to 448 modulo 512, and the length of the message
in bits on 64 bits. In bytes: `0x80`, then `(55 - l) mod 64` zero bytes, then
eight bytes. -/
def fipsPad (msg : List Nat) : List Nat :=
  msg ++ [0x80] ++ List.replicate ((119 - msg.length % 64) % 64) 0
    ++ fipsBytes 8 (8 * msg.length % 2 ^ 64)

/-- FIPS 180-4, 5.2.1: block `i` of the padded message (512 bits). -/
def fipsBlock (padded : List Nat) (i : Nat) : List Nat :=
  (padded.drop (64 * i)).take 64

/-- FIPS 180-4, 5.2.1: word `t` of a block (32 bits, big-endian). -/
def fipsWord (block : List Nat) (t : Nat) : Nat :=
  block.getD (4 * t) 0 * 2 ^ 24 + block.getD (4 * t + 1) 0 * 2 ^ 16
    + block.getD (4 * t + 2) 0 * 2 ^ 8 + block.getD (4 * t + 3) 0

/-- FIPS 180-4, 6.1.2 step 1: the words `W_0 .. W_(15+n)` of the message
schedule of a block whose sixteen words are `m`:
`W_t = ROTL^1(W_(t-3) ⊕ W_(t-8) ⊕ W_(t-14) ⊕ W_(t-16))` for `t ≥ 16`. -/
def fipsSchedule (m : List Nat) : Nat → List Nat
  | 0 => m
  | n + 1 =>
    let w := fipsSchedule m n
    let t := 16 + n
    w ++ [rotateLeft32
      (w.getD (t - 3) 0 ^^^ w.getD (t - 8) 0 ^^^ w.getD (t - 14) 0 ^^^ w.getD (t - 16) 0) 1]

/-- FIPS 180-4, 6.1.2 step 3: round `t`,
`T = ROTL^5(a) + f_t(b, c, d) + e + K_t + W_t`. -/
def fipsStep (w : List Nat) (v : Vars) (t : Nat) : Vars :=
  let T := add32 (add32 (add32 (add32 (rotateLeft32 v.a 5) (fipsF t v.b v.c v.d)) v.e)
    (fipsK t)) (w.getD t 0)
  { a := T, b := v.a, c := rotateLeft32 v.b 30, d := v.c, e := v.d }

/-- FIPS 180-4, 6.1.2: the hash value after one more block. -/
def fipsCompress (h : Vars) (block : List Nat) : Vars :=
  let w := fipsSchedule ((List.range 16).map (fipsWord block)) 64
  let v := (List.range 80).foldl (fipsStep w) h
  { a := add32 v.a h.a, b := add32 v.b h.b, c := add32 v.c h.c, d := add32 v.d h.d,
    e := add32 v.e h.e }

/-- FIPS 180-4, 5.3.1: the initial hash value. -/
def fipsInit : Vars :=
  { a := 0x67452301, b := 0xefcdab89, c := 0x98badcfe, d := 0x10325476, e := 0xc3d2e1f0 }

/-- FIPS 180-4, 6.1: the 160-bit digest of a message, as twenty bytes: every
block of the padded message is processed in order. -/
def sha1Spec (msg : List Byte) : List Nat :=
  let padded := fipsPad (msg.map fun b => b.val)
  let h := (List.range (padded.length / 64)).foldl
    (fun h i => fipsCompress h (fipsBlock padded i)) fipsInit
  fipsBytes 4 h.a ++ fipsBytes 4 h.b ++ fipsBytes 4 h.c ++ fipsBytes 4 h.d ++ fipsBytes 4 h.e

/-- The 56-byte test message of FIPS 180 (two blocks once padded). -/
def fipsTwoBlockMessage : List Byte :=
  asciiBytes "abcdbcdecdefdefgefghfghighijhijkijkljklmklmnlmnomnopnopq"

/-- A message of two hundred bytes `a` (four blocks once padded). -/
def fourBlockMessage : List Byte := List.replicate 200 0x61

/-- A directory holding the single file `movie.mxf`, two hundred bytes
long. -/
def movieTree : Node :=
  .dir true (.cons "movie.mxf" (.file 200 (some fourBlockMessage)) .nil)

/-! ## Paths -/

theorem takeWhile_all {α : Type} (p : α → Bool) (l : List α) (h : ∀ x ∈ l, p x = true) :
    l.takeWhile p = l := by
  induction l with
  | nil => rfl
  | cons a t ih =>
    have ha : p a = true := h a (List.mem_cons_self _ _)
    simp only [List.takeWhile_cons, ha, if_true]
    rw [ih (fun x hx => h x (List.mem_cons_of_mem _ hx))]

theorem dropWhile_all {α : Type} (p : α → Bool) (l : List α) (h : ∀ x ∈ l, p x = true) :
    l.dropWhile p = [] := by
  induction l with
  | nil => rfl
  | cons a t ih =>
    have ha : p a = true := h a (List.mem_cons_self _ _)
    simp only [List.dropWhile_cons, ha, if_true]
    exact ih (fun x hx => h x (List.mem_cons_of_mem _ hx))

theorem takeWhile_append_stop {α : Type} (p : α → Bool) (l r : List α)
    (h : ∀ x ∈ l, p x = true) (hr : r = [] ∨ ∃ y t, r = y :: t ∧ p y = false) :
    (l ++ r).takeWhile p = l := by
  induction l with
  | nil =>
    rcases hr with rfl | ⟨y, t, rfl, hy⟩
    · rfl
    · simp [List.takeWhile_cons, hy]
  | cons a t ih =>
    have ha : p a = true := h a (List.mem_cons_self _ _)
    simp only [List.cons_append, List.takeWhile_cons, ha, if_true]
    rw [ih (fun x hx => h x (List.mem_cons_of_mem _ hx))]

theorem dropWhile_append_stop {α : Type} (p : α → Bool) (l t : List α) (y : α)
    (hy : p y = false) :
    (l ++ y :: t).dropWhile p = l.dropWhile p ++ y :: t := by
  induction l with
  | nil => simp [List.dropWhile_cons, hy]
  | cons a l ih =>
    by_cases ha : p a = true
    · simp only [List.cons_append, List.dropWhile_cons, ha, if_true]
      exact ih
    · simp [List.dropWhile_cons, ha]

theorem length_dropWhile_le {α : Type} (p : α → Bool) (l : List α) :
    (l.dropWhile p).length ≤ l.length := by
  induction l with
  | nil => simp
  | cons a t ih =>
    simp only [List.dropWhile_cons]
    split
    · simp only [List.length_cons]; omega
    · simp

/-- A buffer that is empty or ends in a separator, followed by a name, has
that name as its last element. -/
theorem lastElem_append_name (pre name : List Char) (hne : name ≠ [])
    (hs : '/' ∉ name) (hpre : pre = [] ∨ ∃ q, pre = q ++ ['/']) :
    lastElem (stripTrailing (pre ++ name)) = name := by
  have hrev : ∀ x ∈ name.reverse, x ≠ '/' := by
    intro x hx h
    exact hs (h ▸ (List.mem_reverse.mp hx))
  have hstrip : stripTrailing (pre ++ name) = pre ++ name := by
    unfold stripTrailing
    rw [List.reverse_append]
    cases hn : name.reverse with
    | nil => exact absurd (List.reverse_eq_nil_iff.mp hn) hne
    | cons a t =>
      have ha : a ≠ '/' := hrev a (hn ▸ List.mem_cons_self _ _)
      simp only [List.cons_append, List.dropWhile_cons, decide_eq_true_eq, ha, if_false]
      rw [← List.cons_append, ← hn, ← List.reverse_append, List.reverse_reverse]
  rw [hstrip]
  unfold lastElem
  rw [List.reverse_append, takeWhile_append_stop, List.reverse_reverse]
  · intro x hx
    simpa using hrev x hx
  · rcases hpre with rfl | ⟨q, rfl⟩
    · left; rfl
    · right
      exact ⟨'/', q.reverse, by simp, by simp⟩

theorem Base_append_name (pre name : List Char) (hne : name ≠ [])
    (hs : '/' ∉ name) (hpre : pre = [] ∨ ∃ q, pre = q ++ ['/']) :
    Base ⟨pre ++ name⟩ = ⟨name⟩ := by
  unfold Base
  have h1 : (⟨pre ++ name⟩ : String) ≠ "" := by
    intro h
    have := congrArg String.data h
    simp at this
    exact hne this.2
  rw [if_neg h1]
  simp only [lastElem_append_name pre name hne hs hpre, if_neg hne]


theorem backtrackLen_ge (out : List Char) (dotdot : Nat) :
    ∀ w, dotdot ≤ w → dotdot ≤ backtrackLen out dotdot w := by
  intro w
  induction w with
  | zero => intro h; simpa [backtrackLen] using h
  | succ w ih =>
    intro h
    unfold backtrackLen
    split
    · rename_i hc
      exact ih (by omega)
    · exact h

theorem cleanLoop_nil (rooted : Bool) (fuel : Nat) (out : List Char) (dotdot : Nat) :
    cleanLoop rooted fuel [] out dotdot = out := by
  cases fuel <;> rfl

theorem cleanLoop_name_only (rooted : Bool) (name : List Char) (hne : name ≠ [])
    (hs : '/' ∉ name) (hd1 : name ≠ ['.']) (hd2 : name ≠ ['.', '.'])
    (fuel : Nat) (out : List Char) (dotdot : Nat) (hf : 1 ≤ fuel)
    (hb : BufOk rooted out dotdot) :
    EndsWithName name (cleanLoop rooted fuel name out dotdot) := by
  obtain ⟨fuel, rfl⟩ : ∃ k, fuel = k + 1 := ⟨fuel - 1, by omega⟩
  cases name with
  | nil => exact absurd rfl hne
  | cons c ns =>
    have hc : c ≠ '/' := fun h => hs (h ▸ List.mem_cons_self _ _)
    have hns : ∀ x ∈ ns, x ≠ '/' := fun x hx h => hs (h ▸ List.mem_cons_of_mem _ hx)
    have hhead : ns.head? ≠ some '/' := by
      cases ns with
      | nil => simp
      | cons a t => simpa using hns a (List.mem_cons_self _ _)
    have h2 : ¬ (c = '.' ∧ (ns = [] ∨ ns.head? = some '/')) := by
      rintro ⟨rfl, h | h⟩
      · exact hd1 (by rw [h])
      · exact hhead h
    have h3 : ¬ (c = '.' ∧ ns.head? = some '.' ∧
        (ns.tail = [] ∨ ns.tail.head? = some '/')) := by
      rintro ⟨rfl, h, h'⟩
      cases ns with
      | nil => simp at h
      | cons a t =>
        simp only [List.head?_cons, Option.some.injEq] at h
        subst h
        simp only [List.tail_cons] at h'
        rcases h' with h' | h'
        · exact hd2 (by rw [h'])
        · cases t with
          | nil => simp at h'
          | cons b u =>
            simp only [List.head?_cons, Option.some.injEq] at h'
            exact hns b (by simp) h'
    have htake : ns.takeWhile (fun d => decide (d ≠ '/')) = ns :=
      takeWhile_all _ _ (fun x hx => by simpa using hns x hx)
    have hdrop : ns.dropWhile (fun d => decide (d ≠ '/')) = [] :=
      dropWhile_all _ _ (fun x hx => by simpa using hns x hx)
    simp only [cleanLoop, if_neg hc, if_neg h2, if_neg h3, htake, hdrop, cleanLoop_nil]
    split
    · exact ⟨out ++ ['/'], rfl, Or.inr ⟨out, rfl⟩⟩
    · rename_i hcond
      refine ⟨out, rfl, ?_⟩
      cases rooted with
      | true =>
        obtain ⟨_, t, rfl⟩ := hb rfl
        have : t = [] := by
          by_contra ht
          apply hcond
          left
          refine ⟨rfl, ?_⟩
          cases t with
          | nil => exact absurd rfl ht
          | cons a u => simp
        subst this
        exact Or.inr ⟨[], rfl⟩
      | false =>
        left
        by_contra ho
        apply hcond
        right
        exact ⟨rfl, by simpa using ho⟩

theorem cleanLoop_ends (rooted : Bool) (name : List Char) (hne : name ≠ [])
    (hs : '/' ∉ name) (hd1 : name ≠ ['.']) (hd2 : name ≠ ['.', '.']) :
    ∀ (fuel : Nat) (rest out : List Char) (dotdot : Nat),
      rest.length + 1 + name.length ≤ fuel → BufOk rooted out dotdot →
      EndsWithName name (cleanLoop rooted fuel (rest ++ '/' :: name) out dotdot) := by
  have hlen : 1 ≤ name.length := by
    cases name with
    | nil => exact absurd rfl hne
    | cons a t => simp
  intro fuel
  induction fuel with
  | zero => intro rest out dotdot hf; omega
  | succ fuel ih =>
    intro rest out dotdot hf hb
    cases rest with
    | nil =>
      simp only [List.nil_append, cleanLoop, if_true]
      exact cleanLoop_name_only rooted name hne hs hd1 hd2 fuel out dotdot
        (by simp at hf; omega) hb
    | cons c rest1 =>
      simp only [List.length_cons] at hf
      simp only [List.cons_append, cleanLoop]
      split
      · exact ih rest1 out dotdot (by omega) hb
      · split
        · exact ih rest1 out dotdot (by omega) hb
        · split
          · rename_i hdd
            obtain ⟨rest2, rfl⟩ : ∃ r2, rest1 = '.' :: r2 := by
              cases rest1 with
              | nil =>
                exfalso
                rename_i _ h2
                apply h2
                exact ⟨hdd.1, Or.inr (by simp)⟩
              | cons a t =>
                have := hdd.2.1
                simp only [List.cons_append, List.head?_cons, Option.some.injEq] at this
                subst this
                exact ⟨t, rfl⟩
            simp only [List.cons_append, List.tail_cons]
            simp only [List.length_cons] at hf
            split
            · rename_i hlt
              refine ih rest2 _ dotdot (by omega) ?_
              intro hr
              obtain ⟨hd, t, rfl⟩ := hb hr
              refine ⟨hd, ?_⟩
              have hge := backtrackLen_ge ('/' :: t) dotdot (('/' :: t).length - 1)
                (by simp only [List.length_cons] at hlt ⊢; omega)
              obtain ⟨k, hk⟩ : ∃ k, backtrackLen ('/' :: t) dotdot (('/' :: t).length - 1)
                  = k + 1 := ⟨_, (Nat.succ_pred_eq_of_pos (by omega)).symm⟩
              rw [hk]
              exact ⟨t.take k, by simp⟩
            · split
              · rename_i hr
                refine ih rest2 _ _ (by omega) ?_
                intro hr'
                rw [hr] at hr'
                exact absurd hr' (by simp)
              · exact ih rest2 out dotdot (by omega) hb
          · rw [dropWhile_append_stop _ _ _ _ (by simp)]
            refine ih _ _ dotdot ?_ ?_
            · have := length_dropWhile_le (fun d => decide (d ≠ '/')) rest1
              omega
            · intro hr
              obtain ⟨hd, t, rfl⟩ := hb hr
              refine ⟨hd, ?_⟩
              split
              · exact ⟨_, rfl⟩
              · exact ⟨_, rfl⟩


theorem EndsWithName.ne_nil {name res : List Char} (h : EndsWithName name res)
    (hne : name ≠ []) : res ≠ [] := by
  obtain ⟨pre, rfl, _⟩ := h
  intro h0
  exact hne (List.append_eq_nil.mp h0).2

theorem validName_chars {name : String} (h : validName name) :
    name.data ≠ [] ∧ '/' ∉ name.data ∧ name.data ≠ ['.'] ∧ name.data ≠ ['.', '.'] := by
  obtain ⟨h1, h2, h3, h4⟩ := h
  refine ⟨h1, h2, ?_, ?_⟩
  · intro h
    exact h3 (String.ext h)
  · intro h
    exact h4 (String.ext h)

theorem dot_or_mk_ne_empty (out : List Char) :
    (if out = [] then "." else (⟨out⟩ : String)) ≠ "" := by
  split
  · decide
  · rename_i h
    intro h0
    exact h (congrArg String.data h0)

theorem Clean_ne_empty (p : String) : Clean p ≠ "" := by
  unfold Clean
  cases p.data with
  | nil => decide
  | cons c rest => exact dot_or_mk_ne_empty _

/-- The cleaned join of a non-empty path and a name ends in that name. -/
theorem Clean_join_ends (p name : String) (hp : p ≠ "") (hv : validName name) :
    EndsWithName name.data (Clean (p ++ "/" ++ name)).data := by
  obtain ⟨hne, hs, hd1, hd2⟩ := validName_chars hv
  have hdata : (p ++ "/" ++ name).data = p.data ++ '/' :: name.data := by
    simp [String.data_append]
  have hpd : p.data ≠ [] := fun h => hp (String.ext h)
  unfold Clean
  rw [hdata]
  cases hc : p.data with
  | nil => exact absurd hc hpd
  | cons c rest =>
    simp only [List.cons_append]
    have key : EndsWithName name.data
        (if c = '/' then
          cleanLoop true (rest ++ '/' :: name.data).length (rest ++ '/' :: name.data) ['/'] 1
        else cleanLoop false ((rest ++ '/' :: name.data).length + 1)
          (c :: (rest ++ '/' :: name.data)) [] 0) := by
      split
      · exact cleanLoop_ends true name.data hne hs hd1 hd2 _ rest ['/'] 1
          (by simp; omega) (fun _ => ⟨le_refl 1, [], rfl⟩)
      · exact cleanLoop_ends false name.data hne hs hd1 hd2 _ (c :: rest) [] 0
          (by simp; omega) (fun h => absurd h (by simp))
    rw [if_neg (key.ne_nil hne)]
    exact key

/-- `filepath.Base` of `filepath.Join(path, name)` is `name`. -/
theorem Base_Join (p name : String) (hp : p ≠ "") (hv : validName name) :
    Base (Join p name) = name := by
  unfold Join
  rw [if_pos hp]
  obtain ⟨pre, hpre, hshape⟩ := Clean_join_ends p name hp hv
  have : Clean (p ++ "/" ++ name) = ⟨pre ++ name.data⟩ := String.ext hpre
  rw [this]
  exact Base_append_name pre name.data hv.1 hv.2.1 hshape

theorem Join_ne_empty (p name : String) (hp : p ≠ "") : Join p name ≠ "" := by
  unfold Join
  rw [if_pos hp]
  exact Clean_ne_empty _

theorem dropWhile_append_of_nil {α : Type} (p : α → Bool) (l r : List α)
    (h : l.dropWhile p = []) : (l ++ r).dropWhile p = r.dropWhile p := by
  induction l with
  | nil => rfl
  | cons a t ih =>
    by_cases ha : p a = true
    · simp only [List.dropWhile_cons, ha, if_true] at h
      simp only [List.cons_append, List.dropWhile_cons, ha, if_true]
      exact ih h
    · simp [List.dropWhile_cons, ha] at h

theorem dropWhile_append_of_ne {α : Type} (p : α → Bool) (l r : List α)
    (h : l.dropWhile p ≠ []) : (l ++ r).dropWhile p = l.dropWhile p ++ r := by
  induction l with
  | nil => exact absurd rfl h
  | cons a t ih =>
    by_cases ha : p a = true
    · simp only [List.dropWhile_cons, ha, if_true] at h
      simp only [List.cons_append, List.dropWhile_cons, ha, if_true]
      exact ih h
    · simp [List.dropWhile_cons, ha]

theorem dropWhile_head_not {α : Type} (p : α → Bool) (l : List α) (a : α) (t : List α)
    (h : l.dropWhile p = a :: t) : p a = false := by
  induction l with
  | nil => simp at h
  | cons b u ih =>
    by_cases hb : p b = true
    · simp only [List.dropWhile_cons, hb, if_true] at h
      exact ih h
    · simp only [List.dropWhile_cons, hb] at h
      simp only [Bool.false_eq_true, if_false, List.cons.injEq] at h
      rw [← h.1]
      simpa using hb

/-- For a non-empty path, the name `os.Lstat` reports is `filepath.Base` of
the path. -/
theorem osBasename_eq_Base (root : String) (h : root ≠ "") : osBasename root = Base root := by
  unfold osBasename Base
  rw [if_neg h]
  cases hd : root.data with
  | nil => exact absurd (String.ext hd) h
  | cons c rest =>
    simp only
    have hs : stripTrailing (c :: rest)
        = if stripTrailing rest = [] then (if c = '/' then [] else [c])
          else c :: stripTrailing rest := by
      unfold stripTrailing
      rw [List.reverse_cons]
      by_cases h0 : List.dropWhile (fun c => decide (c = '/')) rest.reverse = []
      · rw [dropWhile_append_of_nil _ _ _ h0, if_pos (by rw [h0]; rfl)]
        by_cases hc : c = '/'
        · simp [hc]
        · simp [hc]
      · rw [dropWhile_append_of_ne _ _ _ h0, if_neg (by simpa using h0)]
        simp
    rw [hs]
    by_cases h0 : stripTrailing rest = []
    · rw [if_pos h0, if_pos h0]
      by_cases hc : c = '/'
      · subst hc
        rw [if_pos rfl]
        rfl
      · rw [if_neg hc]
        have : lastElem [c] = [c] := by
          unfold lastElem
          simp [List.takeWhile_cons, hc]
        rw [this, if_neg (by simp)]
    · rw [if_neg h0, if_neg h0]
      have hne : lastElem (c :: stripTrailing rest) ≠ [] := by
        unfold lastElem stripTrailing
        unfold stripTrailing at h0
        cases hr : List.dropWhile (fun c => decide (c = '/')) rest.reverse with
        | nil => rw [hr] at h0; exact absurd rfl h0
        | cons a t =>
          have ha := dropWhile_head_not _ _ _ _ hr
          simp only [decide_eq_false_iff_not] at ha
          simp [List.takeWhile_cons, ha]
      rw [if_neg hne]

/-! ## The walk and the traversal order -/

theorem runVisits_append {σ : Type} (walkFn : WalkFunc σ) (l1 l2 : List Visit) (s : σ) :
    runVisits walkFn (l1 ++ l2) s
      = if (runVisits walkFn l1 s).2 then runVisits walkFn l1 s
        else runVisits walkFn l2 (runVisits walkFn l1 s).1 := by
  induction l1 generalizing s with
  | nil => simp [runVisits]
  | cons v vs ih =>
    simp only [List.cons_append, runVisits]
    by_cases h : (walkFn s v.path v.info v.err).2 = true
    · simp [h]
    · simp only [h, if_false]
      exact ih _

theorem stop_or_continue {σ : Type} (r : σ × Bool) :
    (if r.2 = true then r else (r.1, false)) = r := by
  obtain ⟨a, b⟩ := r
  cases b <;> rfl

mutual
/-- The walk calls the walk function along the traversal order until it
returns an error. -/
theorem walk_eq_runVisits {σ : Type} (walkFn : WalkFunc σ) :
    ∀ (node : Node) (path name : String) (s : σ),
      walk walkFn path name node s = runVisits walkFn (visits path name node) s
  | .broken, path, name, s => by simp only [walk, visits, runVisits, stop_or_continue]
  | .file size content, path, name, s => by
    simp only [walk, visits, runVisits, stop_or_continue]
  | .other, path, name, s => by
    simp only [walk, visits, runVisits, stop_or_continue]
  | .dir readable entries, path, name, s => by
    simp only [walk, visits, runVisits]
    cases readable with
    | false =>
      simp only [Bool.not_false, Bool.true_or, if_true, Bool.false_eq_true, if_false, runVisits,
        stop_or_continue]
    | true =>
      simp only [Bool.not_true, Bool.false_or, if_true]
      split
      · rfl
      · exact walkEntries_eq_runVisits walkFn entries path _
theorem walkEntries_eq_runVisits {σ : Type} (walkFn : WalkFunc σ) :
    ∀ (entries : Entries) (path : String) (s : σ),
      walkEntries walkFn path entries s = runVisits walkFn (visitsEntries path entries) s
  | .nil, path, s => by simp [walkEntries, visitsEntries, runVisits]
  | .cons name node rest, path, s => by
    simp only [walkEntries, visitsEntries]
    rw [runVisits_append, walk_eq_runVisits walkFn node (Join path name) name s]
    split
    · rfl
    · exact walkEntries_eq_runVisits walkFn rest path _
end

theorem Walk_eq_runVisits {σ : Type} (walkFn : WalkFunc σ) (root : String) (tree : Node)
    (s : σ) : Walk walkFn root tree s = runVisits walkFn (Visits root tree) s :=
  walk_eq_runVisits walkFn _ _ _ s

mutual
/-- The walk passes no `FileInfo` only together with an error. -/
theorem visits_info_none (path name : String) :
    ∀ (node : Node), ∀ v ∈ visits path name node, v.info = none → v.err = true
  | .broken => by
    intro v hv _
    simp only [visits, List.mem_singleton] at hv
    rw [hv]
  | .file size content => by
    intro v hv h
    simp only [visits, List.mem_singleton] at hv
    rw [hv] at h
    simp [Node.info] at h
  | .other => by
    intro v hv h
    simp only [visits, List.mem_singleton] at hv
    rw [hv] at h
    simp [Node.info] at h
  | .dir readable entries => by
    intro v hv h
    simp only [visits, List.mem_cons] at hv
    rcases hv with hv | hv
    · rw [hv] at h
      simp [Node.info] at h
    · cases readable with
      | false => simp at hv
      | true =>
        simp only [if_true] at hv
        exact visitsEntries_info_none path entries v hv h
theorem visitsEntries_info_none (path : String) :
    ∀ (entries : Entries), ∀ v ∈ visitsEntries path entries, v.info = none → v.err = true
  | .nil => by
    intro v hv
    simp [visitsEntries] at hv
  | .cons name node rest => by
    intro v hv h
    simp only [visitsEntries, List.mem_append] at hv
    rcases hv with hv | hv
    · exact visits_info_none (Join path name) name node v hv h
    · exact visitsEntries_info_none path rest v hv h
end

theorem runVisits_pklFn (env : Env) (folderPath : String) (reg : Registry) (vs : List Visit)
    (assets : List Asset) :
    runVisits (pklFn env folderPath reg) vs assets
      = (assets ++ (regularFiles (beforeError vs)).map
          (fun f => pklAsset env folderPath reg f.1 f.2), vs.any fun v => v.err) := by
  induction vs generalizing assets with
  | nil => simp [runVisits, beforeError, regularFiles]
  | cons v vs ih =>
    obtain ⟨path, info, err⟩ := v
    cases err with
    | true => simp [runVisits, pklFn, beforeError, regularFiles]
    | false =>
      cases info with
      | none =>
        simp only [runVisits, pklFn, Bool.false_eq_true, if_false, ih, beforeError, regularFiles,
          List.takeWhile_cons, Bool.not_false, if_true, List.filterMap_cons, List.any_cons,
          Bool.false_or]
      | some i =>
        cases hreg : i.IsRegular with
        | false =>
          simp only [runVisits, pklFn, Bool.false_eq_true, if_false, ih, beforeError,
            regularFiles, List.takeWhile_cons, Bool.not_false, if_true, List.filterMap_cons,
            List.any_cons, Bool.false_or, hreg]
        | true =>
          simp only [runVisits, pklFn, Bool.false_eq_true, if_false, ih, beforeError,
            regularFiles, List.takeWhile_cons, Bool.not_false, if_true, List.filterMap_cons,
            List.any_cons, Bool.false_or, hreg, List.map_cons, List.append_assoc,
            List.singleton_append]

theorem runVisits_amFn (folderPath : String) (reg : Registry) (vs : List Visit)
    (assets : List AMAsset) :
    runVisits (amFn folderPath reg) vs assets
      = (assets ++ (regularFiles (beforeError vs)).map
          (fun f => amAsset folderPath reg f.1 f.2), vs.any fun v => v.err) := by
  induction vs generalizing assets with
  | nil => simp [runVisits, beforeError, regularFiles]
  | cons v vs ih =>
    obtain ⟨path, info, err⟩ := v
    cases err with
    | true => simp [runVisits, amFn, beforeError, regularFiles]
    | false =>
      cases info with
      | none =>
        simp only [runVisits, amFn, Bool.false_eq_true, if_false, ih, beforeError, regularFiles,
          List.takeWhile_cons, Bool.not_false, if_true, List.filterMap_cons, List.any_cons,
          Bool.false_or]
      | some i =>
        cases hreg : i.IsRegular with
        | false =>
          simp only [runVisits, amFn, Bool.false_eq_true, if_false, ih, beforeError,
            regularFiles, List.takeWhile_cons, Bool.not_false, if_true, List.filterMap_cons,
            List.any_cons, Bool.false_or, hreg]
        | true =>
          simp only [runVisits, amFn, Bool.false_eq_true, if_false, ih, beforeError,
            regularFiles, List.takeWhile_cons, Bool.not_false, if_true, List.filterMap_cons,
            List.any_cons, Bool.false_or, hreg, List.map_cons, List.append_assoc,
            List.singleton_append]

/-- The assets of the packing list are those of the regular files presented
before the first error, in order. -/
theorem packingList_assets (env : Env) (folderPath : String) (reg : Registry) (tree : Node) :
    (packingList env folderPath reg tree).AssetList.Assets
      = (regularFiles (beforeError (Visits folderPath tree))).map
          (fun f => pklAsset env folderPath reg f.1 f.2) := by
  simp [packingList, Walk_eq_runVisits, runVisits_pklFn]

/-- The assets of the asset map are those of the regular files presented
before the first error, in order. -/
theorem assetMap_assets (env : Env) (folderPath : String) (reg : Registry) (tree : Node) :
    (assetMap env folderPath reg tree).AssetList.Assets
      = (regularFiles (beforeError (Visits folderPath tree))).map
          (fun f => amAsset folderPath reg f.1 f.2) := by
  simp [assetMap, Walk_eq_runVisits, runVisits_amFn]

theorem mem_regularFiles {vs : List Visit} {f : String × FileInfo} :
    f ∈ regularFiles vs ↔ ∃ v ∈ vs, v.path = f.1 ∧ v.info = some f.2 ∧ f.2.IsRegular = true := by
  unfold regularFiles
  rw [List.mem_filterMap]
  constructor
  · rintro ⟨v, hv, h⟩
    refine ⟨v, hv, ?_⟩
    cases hi : v.info with
    | none => simp [hi] at h
    | some i =>
      simp only [hi] at h
      by_cases hr : i.IsRegular = true
      · simp only [hr, if_true, Option.some.injEq] at h
        subst h
        exact ⟨rfl, rfl, hr⟩
      · simp [hr] at h
  · rintro ⟨v, hv, hp, hi, hr⟩
    refine ⟨v, hv, ?_⟩
    simp only [hi, hr, if_true, hp]

mutual
/-- Under a non-empty path, every entry is presented under the base name of
its path. -/
theorem visits_name {name : String} :
    ∀ (node : Node) (path : String), path ≠ "" → node.namesValid = true → name = Base path →
      ∀ v ∈ visits path name node, v.path ≠ "" ∧ ∀ i, v.info = some i → i.Name = Base v.path
  | .broken, path, hp, _, _ => by
    intro v hv
    simp only [visits, List.mem_singleton] at hv
    subst hv
    exact ⟨hp, fun i h => by simp at h⟩
  | .file size content, path, hp, _, hn => by
    intro v hv
    simp only [visits, List.mem_singleton] at hv
    subst hv
    refine ⟨hp, fun i h => ?_⟩
    simp only [Node.info, Option.some.injEq] at h
    rw [← h]
    exact hn
  | .other, path, hp, _, hn => by
    intro v hv
    simp only [visits, List.mem_singleton] at hv
    subst hv
    refine ⟨hp, fun i h => ?_⟩
    simp only [Node.info, Option.some.injEq] at h
    rw [← h]
    exact hn
  | .dir readable entries, path, hp, hvalid, hn => by
    intro v hv
    simp only [visits, List.mem_cons] at hv
    rcases hv with hv | hv
    · subst hv
      refine ⟨hp, fun i h => ?_⟩
      simp only [Node.info, Option.some.injEq] at h
      rw [← h]
      exact hn
    · cases readable with
      | false => simp at hv
      | true =>
        simp only [if_true] at hv
        exact visitsEntries_name entries path hp (by simpa [Node.namesValid] using hvalid) v hv
theorem visitsEntries_name :
    ∀ (entries : Entries) (path : String), path ≠ "" → entries.namesValid = true →
      ∀ v ∈ visitsEntries path entries,
        v.path ≠ "" ∧ ∀ i, v.info = some i → i.Name = Base v.path
  | .nil, path, _, _ => by
    intro v hv
    simp [visitsEntries] at hv
  | .cons name node rest, path, hp, hvalid => by
    intro v hv
    simp only [Entries.namesValid, Bool.and_eq_true, decide_eq_true_eq] at hvalid
    simp only [visitsEntries, List.mem_append] at hv
    rcases hv with hv | hv
    · exact visits_name node (Join path name) (Join_ne_empty path name hp) hvalid.1.2
        (Base_Join path name hp hvalid.1.1).symm v hv
    · exact visitsEntries_name rest path hp hvalid.2 v hv
end

/-- Every entry of the traversal that has a `FileInfo` carries the base name
of its path as its name. -/
theorem Visits_name (root : String) (tree : Node) (hvalid : tree.namesValid = true) :
    ∀ v ∈ Visits root tree, ∀ i, v.info = some i → i.Name = Base v.path := by
  intro v hv
  unfold Visits Lstat at hv
  by_cases hr : root = ""
  · rw [if_pos hr] at hv
    simp only [visits, List.mem_singleton] at hv
    subst hv
    intro i h
    simp at h
  · rw [if_neg hr] at hv
    exact (visits_name tree root hr hvalid (osBasename_eq_Base root hr) v hv).2

theorem regularFiles_beforeError_subset (vs : List Visit) :
    ∀ f ∈ regularFiles (beforeError vs), f ∈ regularFiles vs := by
  intro f hf
  obtain ⟨v, hv, h⟩ := mem_regularFiles.mp hf
  exact mem_regularFiles.mpr ⟨v, (List.takeWhile_sublist _).subset hv, h⟩

theorem beforeError_append_error (l1 l2 : List Visit) (e : Visit) (he : e.err = true)
    (h1 : ∀ v ∈ l1, v.err = false) : beforeError (l1 ++ e :: l2) = l1 := by
  unfold beforeError
  exact takeWhile_append_stop _ l1 (e :: l2) (fun v hv => by simp [h1 v hv])
    (Or.inr ⟨e, l2, rfl, by simp [he]⟩)

theorem any_err_append_error (l1 l2 : List Visit) (e : Visit) (he : e.err = true) :
    (l1 ++ e :: l2).any (fun v => v.err) = true := by
  simp [he]

/-! ## The claims about the builders -/

/-- C1: for every registry and every regular file processed by both builders
(possibly on different states of the tree), the asset `createPackingList`
builds for it and the asset `createAssetmap` builds for it are in their
documents and carry the same `Id`, the string `urn:uuid:` followed by the
registry entry for the base name of the file. -/
theorem asset_ids_agree (env : Env) (folderPath : String) (reg : Registry)
    (tree tree1 : Node) (path : String) (info info1 : FileInfo)
    (h : (path, info) ∈ regularFiles (beforeError (Visits folderPath tree)))
    (h1 : (path, info1) ∈ regularFiles (beforeError (Visits folderPath tree1))) :
    pklAsset env folderPath reg path info
        ∈ (packingList env folderPath reg tree).AssetList.Assets ∧
      amAsset folderPath reg path info1
        ∈ (assetMap env folderPath reg tree1).AssetList.Assets ∧
      (pklAsset env folderPath reg path info).Id = (amAsset folderPath reg path info1).Id ∧
      (pklAsset env folderPath reg path info).Id = "urn:uuid:" ++ reg.get (Base path) := by
  refine ⟨?_, ?_, rfl, rfl⟩
  · rw [packingList_assets]
    exact List.mem_map.mpr ⟨(path, info), h, rfl⟩
  · rw [assetMap_assets]
    exact List.mem_map.mpr ⟨(path, info1), h1, rfl⟩

/-- Witness of C1: the file `pkg/a.txt` of the sample tree, seen by
`createPackingList` before and by `createAssetmap` after `Packinglist.xml`
is written. -/
theorem asset_ids_agree_witness :
    pklAsset sampleEnv "pkg" [("a.txt", "id-1")] "pkg/a.txt" ⟨"a.txt", false, true, 3, some [1, 2, 3]⟩
        ∈ (packingList sampleEnv "pkg" [("a.txt", "id-1")] sampleTree).AssetList.Assets ∧
      amAsset "pkg" [("a.txt", "id-1")] "pkg/a.txt" ⟨"a.txt", false, true, 3, some [1, 2, 3]⟩
        ∈ (assetMap sampleEnv "pkg" [("a.txt", "id-1")]
            (.dir true (.cons "Packinglist.xml" (.file 0 (some []))
              (.cons "a.txt" (.file 3 (some [1, 2, 3])) .nil)))).AssetList.Assets ∧
      (pklAsset sampleEnv "pkg" [("a.txt", "id-1")] "pkg/a.txt"
          ⟨"a.txt", false, true, 3, some [1, 2, 3]⟩).Id
        = (amAsset "pkg" [("a.txt", "id-1")] "pkg/a.txt"
          ⟨"a.txt", false, true, 3, some [1, 2, 3]⟩).Id ∧
      (pklAsset sampleEnv "pkg" [("a.txt", "id-1")] "pkg/a.txt"
          ⟨"a.txt", false, true, 3, some [1, 2, 3]⟩).Id
        = "urn:uuid:" ++ Registry.get [("a.txt", "id-1")] (Base "pkg/a.txt") :=
  asset_ids_agree sampleEnv "pkg" [("a.txt", "id-1")] sampleTree
    (.dir true (.cons "Packinglist.xml" (.file 0 (some []))
      (.cons "a.txt" (.file 3 (some [1, 2, 3])) .nil)))
    "pkg/a.txt" ⟨"a.txt", false, true, 3, some [1, 2, 3]⟩ ⟨"a.txt", false, true, 3, some [1, 2, 3]⟩
    (by decide) (by decide)

/-- C9: in a tree whose names are names a directory can list, the asset map
has `VolumeCount` `"1"`, and its assets are, in order, one per regular file
processed: each has exactly one chunk, whose path is the base name of the
file, the very name the registry is asked for. -/
theorem assetMap_single_chunk (env : Env) (folderPath : String) (reg : Registry)
    (tree : Node) (hvalid : tree.namesValid = true) :
    (assetMap env folderPath reg tree).VolumeCount = "1" ∧
      (assetMap env folderPath reg tree).AssetList.Assets
        = (regularFiles (beforeError (Visits folderPath tree))).map fun f =>
            { Id := "urn:uuid:" ++ reg.get (Base f.1)
              AnnotationText := Base folderPath
              ChunkList := { Chunk := [{ Path := Base f.1 }] } } := by
  refine ⟨rfl, ?_⟩
  rw [assetMap_assets]
  apply List.map_congr_left
  intro f hf
  obtain ⟨v, hv, hp, hi, _⟩ := mem_regularFiles.mp (regularFiles_beforeError_subset _ f hf)
  have hname := Visits_name folderPath tree hvalid v hv f.2 hi
  simp only [amAsset, hname, hp]

/-- Witness of C9: the sample tree. -/
theorem assetMap_single_chunk_witness :
    (assetMap sampleEnv "pkg" [] sampleTree).VolumeCount = "1" ∧
      (assetMap sampleEnv "pkg" [] sampleTree).AssetList.Assets
        = (regularFiles (beforeError (Visits "pkg" sampleTree))).map fun f =>
            { Id := "urn:uuid:" ++ Registry.get [] (Base f.1)
              AnnotationText := Base "pkg"
              ChunkList := { Chunk := [{ Path := Base f.1 }] } } :=
  assetMap_single_chunk sampleEnv "pkg" [] sampleTree (by decide)

/-- Counterexample to C7: in a directory whose first entry `a` cannot be
examined (the walk reports an error for it), the regular file `b.txt` comes
after it in traversal order, yet neither document has an asset. -/
theorem walk_does_not_continue :
    (Visits "pkg" brokenEntryTree).map Visit.path = ["pkg", "pkg/a", "pkg/b.txt"] ∧
      (Visits "pkg" brokenEntryTree).map Visit.err = [false, true, false] ∧
      (regularFiles (Visits "pkg" brokenEntryTree)).map Prod.fst = ["pkg/b.txt"] ∧
      (packingList sampleEnv "pkg" [] brokenEntryTree).AssetList.Assets = [] ∧
      (assetMap sampleEnv "pkg" [] brokenEntryTree).AssetList.Assets = [] := by
  decide

/-- C7, amended: when the walk reports an error for an entry during a
document-building pass, the walk function returns it and the walk stops
there; the builder drops the error and builds its document from the regular
files presented before the failing entry, and from no file after it. -/
theorem builders_stop_at_error (env : Env) (folderPath : String) (reg : Registry)
    (tree : Node) (before after : List Visit) (failing : Visit)
    (hsplit : Visits folderPath tree = before ++ failing :: after)
    (hfail : failing.err = true) (hbefore : ∀ v ∈ before, v.err = false) :
    (Walk (pklFn env folderPath reg) folderPath tree []).2 = true ∧
      (Walk (amFn folderPath reg) folderPath tree []).2 = true ∧
      (packingList env folderPath reg tree).AssetList.Assets
        = (regularFiles before).map (fun f => pklAsset env folderPath reg f.1 f.2) ∧
      (assetMap env folderPath reg tree).AssetList.Assets
        = (regularFiles before).map (fun f => amAsset folderPath reg f.1 f.2) := by
  refine ⟨?_, ?_, ?_, ?_⟩
  · rw [Walk_eq_runVisits, runVisits_pklFn, hsplit]
    exact any_err_append_error before after failing hfail
  · rw [Walk_eq_runVisits, runVisits_amFn, hsplit]
    exact any_err_append_error before after failing hfail
  · rw [packingList_assets, hsplit, beforeError_append_error before after failing hfail hbefore]
  · rw [assetMap_assets, hsplit, beforeError_append_error before after failing hfail hbefore]

/-- Witness of C7, amended: the directory whose first entry cannot be
examined. -/
theorem builders_stop_at_error_witness :
    (Walk (pklFn sampleEnv "pkg" []) "pkg" brokenEntryTree []).2 = true ∧
      (Walk (amFn "pkg" []) "pkg" brokenEntryTree []).2 = true ∧
      (packingList sampleEnv "pkg" [] brokenEntryTree).AssetList.Assets
        = (regularFiles [⟨"pkg", Node.info "pkg" brokenEntryTree, false⟩]).map
            (fun f => pklAsset sampleEnv "pkg" [] f.1 f.2) ∧
      (assetMap sampleEnv "pkg" [] brokenEntryTree).AssetList.Assets
        = (regularFiles [⟨"pkg", Node.info "pkg" brokenEntryTree, false⟩]).map
            (fun f => amAsset "pkg" [] f.1 f.2) :=
  builders_stop_at_error sampleEnv "pkg" [] brokenEntryTree
    [⟨"pkg", Node.info "pkg" brokenEntryTree, false⟩]
    [⟨"pkg/b.txt", Node.info "b.txt" (.file 0 (some [])), false⟩]
    ⟨"pkg/a", none, true⟩ (by decide) (by decide) (by decide)

/-- C8: when `os.Stat` fails on the path typed in, and when the path names an
empty directory, `main` calls neither `iterate` nor a builder, draws no
identifier, leaves the map empty and leaves the tree as it was, so neither
`Packinglist.xml` nor `assetmap.xml` is created. -/
theorem main_no_output (env : Env) (userFolderName : String) (tree : Node)
    (h : tree = .broken ∨ ∃ readable, tree = .dir readable .nil) :
    (main env userFolderName tree).tree = tree ∧
      (main env userFolderName tree).calls = [] ∧
      (main env userFolderName tree).myMap = [] ∧
      (main env userFolderName tree).drawn = 0 ∧
      ((main env userFolderName tree).outcome = .statError ∨
        (main env userFolderName tree).outcome = .emptyDir) ∧
      (tree = .broken → (main env userFolderName tree).outcome = .statError) ∧
      (userFolderName ≠ "" → tree ≠ .broken →
        (main env userFolderName tree).outcome = .emptyDir) := by
  rcases h with rfl | ⟨readable, rfl⟩
  · have : Lstat userFolderName .broken = .broken := by
      unfold Lstat; split <;> rfl
    simp [main, this, statFails]
  · by_cases hr : userFolderName = ""
    · simp [main, Lstat, hr, statFails]
    · cases readable <;> simp [main, Lstat, hr, hasEntry, statFails]

/-- Witness of C8: an empty directory. -/
theorem main_no_output_witness :
    (main sampleEnv "pkg" (.dir true .nil)).tree = .dir true .nil ∧
      (main sampleEnv "pkg" (.dir true .nil)).calls = [] ∧
      (main sampleEnv "pkg" (.dir true .nil)).myMap = [] ∧
      (main sampleEnv "pkg" (.dir true .nil)).drawn = 0 ∧
      ((main sampleEnv "pkg" (.dir true .nil)).outcome = .statError ∨
        (main sampleEnv "pkg" (.dir true .nil)).outcome = .emptyDir) ∧
      (Node.dir true .nil = .broken →
        (main sampleEnv "pkg" (.dir true .nil)).outcome = .statError) ∧
      ("pkg" ≠ "" → Node.dir true .nil ≠ .broken →
        (main sampleEnv "pkg" (.dir true .nil)).outcome = .emptyDir) :=
  main_no_output sampleEnv "pkg" (.dir true .nil) (Or.inr ⟨true, rfl⟩)

/-! ## Size and hash -/

/-- The value of a run of decimal digits. -/
theorem digitChar_spec : ∀ d, d < 10 →
    (digitChar d).isDigit = true ∧ (digitChar d).toNat - 48 = d ∧
      (digitChar d = '0' → d = 0) := by
  decide

/-- With enough fuel `formatBits` writes, in front of `acc`, a non-empty run
of digits whose value is `u` and which starts with `0` only for `u = 0`. -/
theorem formatBits_spec : ∀ (fuel u : Nat) (acc : List Char), u < fuel →
    ∃ ds : List Char, formatBits fuel u acc = ds ++ acc ∧ ds ≠ [] ∧
      (∀ c ∈ ds, c.isDigit = true) ∧
      ds.foldl (fun a c => 10 * a + (c.toNat - 48)) 0 = u ∧
      (ds.head? = some '0' → ds = ['0']) := by
  intro fuel
  induction fuel with
  | zero => intro u acc h; omega
  | succ fuel ih =>
    intro u acc h
    unfold formatBits
    by_cases hu : u < 10
    · rw [if_pos hu]
      obtain ⟨h1, h2, h3⟩ := digitChar_spec u hu
      refine ⟨[digitChar u], rfl, by simp, ?_, ?_, ?_⟩
      · intro c hc
        rw [List.mem_singleton.mp hc]
        exact h1
      · simp [h2]
      · intro hh
        simp only [List.head?_cons, Option.some.injEq] at hh
        rw [hh]
    · rw [if_neg hu]
      obtain ⟨ds, hds, hne, hdig, hval, hz⟩ :=
        ih (u / 10) (digitChar (u % 10) :: acc) (by omega)
      obtain ⟨h1, h2, _⟩ := digitChar_spec (u % 10) (Nat.mod_lt _ (by omega))
      refine ⟨ds ++ [digitChar (u % 10)], by rw [hds]; simp, by simp, ?_, ?_, ?_⟩
      · intro c hc
        rcases List.mem_append.mp hc with hc | hc
        · exact hdig c hc
        · rw [List.mem_singleton.mp hc]
          exact h1
      · rw [List.foldl_append, hval]
        simp only [List.foldl_cons, List.foldl_nil, h2]
        omega
      · intro hh
        exfalso
        cases ds with
        | nil => exact hne rfl
        | cons a t =>
          simp only [List.cons_append, List.head?_cons, Option.some.injEq] at hh
          have := hz (by simp [hh])
          rw [this] at hval
          simp at hval
          omega

/-- `strconv.FormatInt` of a size that is not negative: digits only, no
leading zero, and read back as the same number. -/
theorem FormatInt_nonneg (size : Int) (h : 0 ≤ size) :
    parseDecimal (FormatInt size) = some size ∧
      (∀ c ∈ (FormatInt size).data, c.isDigit = true) ∧
      ((FormatInt size).data.head? = some '0' → FormatInt size = "0") := by
  obtain ⟨ds, hds, hne, hdig, hval, hz⟩ :=
    formatBits_spec (size.toNat + 1) size.toNat [] (by omega)
  rw [List.append_nil] at hds
  have hf : FormatInt size = ⟨ds⟩ := by
    unfold FormatInt
    rw [if_neg (by omega), hds]
  rw [hf]
  refine ⟨?_, hdig, ?_⟩
  · unfold parseDecimal
    have hall : ds.all (fun c => c.isDigit) = true := by
      rw [List.all_eq_true]
      exact hdig
    simp only [hne, ne_eq, not_false_eq_true, hall, and_self, if_true, hval]
    simp [Int.toNat_of_nonneg h]
  · intro hh
    rw [hz hh]

/-- C4: for every regular file processed by `createPackingList` whose size in
the file metadata is not negative, the `Size` of its asset is
`strconv.FormatInt` of that size: digits only (no sign), no leading zero, and
read back as a decimal integer it is exactly the size. -/
theorem asset_size_decimal (env : Env) (folderPath : String) (reg : Registry) (tree : Node)
    (f : String × FileInfo)
    (hf : f ∈ regularFiles (beforeError (Visits folderPath tree)))
    (hsize : 0 ≤ f.2.Size) :
    pklAsset env folderPath reg f.1 f.2
        ∈ (packingList env folderPath reg tree).AssetList.Assets ∧
      (pklAsset env folderPath reg f.1 f.2).Size = FormatInt f.2.Size ∧
      parseDecimal (pklAsset env folderPath reg f.1 f.2).Size = some f.2.Size ∧
      (∀ c ∈ (pklAsset env folderPath reg f.1 f.2).Size.data, c.isDigit = true) ∧
      ((pklAsset env folderPath reg f.1 f.2).Size.data.head? = some '0' →
        (pklAsset env folderPath reg f.1 f.2).Size = "0") := by
  refine ⟨?_, rfl, ?_⟩
  · rw [packingList_assets]
    exact List.mem_map.mpr ⟨f, hf, rfl⟩
  · exact FormatInt_nonneg f.2.Size hsize

/-- Witness of C4: the three-byte file `pkg/a.txt` of the sample tree. -/
theorem asset_size_decimal_witness :
    pklAsset sampleEnv "pkg" [] "pkg/a.txt" ⟨"a.txt", false, true, 3, some [1, 2, 3]⟩
        ∈ (packingList sampleEnv "pkg" [] sampleTree).AssetList.Assets ∧
      (pklAsset sampleEnv "pkg" [] "pkg/a.txt" ⟨"a.txt", false, true, 3, some [1, 2, 3]⟩).Size
        = FormatInt 3 ∧
      parseDecimal
          (pklAsset sampleEnv "pkg" [] "pkg/a.txt" ⟨"a.txt", false, true, 3, some [1, 2, 3]⟩).Size
        = some 3 ∧
      (∀ c ∈ (pklAsset sampleEnv "pkg" [] "pkg/a.txt"
          ⟨"a.txt", false, true, 3, some [1, 2, 3]⟩).Size.data, c.isDigit = true) ∧
      ((pklAsset sampleEnv "pkg" [] "pkg/a.txt"
          ⟨"a.txt", false, true, 3, some [1, 2, 3]⟩).Size.data.head? = some '0' →
        (pklAsset sampleEnv "pkg" [] "pkg/a.txt"
          ⟨"a.txt", false, true, 3, some [1, 2, 3]⟩).Size = "0") :=
  asset_size_decimal sampleEnv "pkg" [] sampleTree
    ("pkg/a.txt", ⟨"a.txt", false, true, 3, some [1, 2, 3]⟩) (by decide) (by decide)

theorem bigEndian_length (n x : Nat) : (bigEndian n x).length = n := by
  induction n with
  | zero => rfl
  | succ n ih => simp [bigEndian, ih]

theorem sha1Sum_length (msg : List Byte) : (sha1Sum msg).length = 20 := by
  simp [sha1Sum, bigEndian_length]

theorem hexDigit_mem : ∀ n, n < 16 → hexDigit n ∈ "0123456789abcdef".data := by
  decide

theorem hexEncode_spec (bs : List Nat) :
    (hexEncode bs).length = 2 * bs.length ∧
      ∀ c ∈ (hexEncode bs).data, c ∈ "0123456789abcdef".data := by
  unfold hexEncode
  simp only [String.length]
  induction bs with
  | nil => simp
  | cons b t ih =>
    simp only [List.flatMap_cons, List.length_append, List.length_cons, List.length_nil,
      List.mem_append]
    refine ⟨by omega, ?_⟩
    intro c hc
    rcases hc with hc | hc
    · simp only [List.mem_cons, List.mem_singleton, List.not_mem_nil, or_false] at hc
      rcases hc with rfl | rfl
      · exact hexDigit_mem _ (Nat.mod_lt _ (by omega))
      · exact hexDigit_mem _ (Nat.mod_lt _ (by omega))
    · exact ih.2 c hc

/-- The digest of the empty input. -/
theorem sha1_empty :
    hexEncode (sha1Sum []) = "da39a3ee5e6b4b0d3255bfef95601890afd80709" := by
  decide!

/-- The digest of `abc`, the first test vector of FIPS 180. -/
theorem sha1_abc :
    hexEncode (sha1Sum [0x61, 0x62, 0x63]) = "a9993e364706816aba3e25717850c26c9cd0d89d" := by
  decide!

/-! ## The registry pass -/

/-- When `iterate` ends without `log.Fatalf`, no entry was reported with an
error, and the map holds a fresh identifier for every entry presented. -/
theorem runVisits_iterateFn (env : Env) (vs : List Visit) (s : IterState)
    (h : (runVisits (iterateFn env) vs s).1.fatal = false) :
    (∀ v ∈ vs, v.err = false) ∧ s.fatal = false ∧
      (runVisits (iterateFn env) vs s).1.myMap = registerAll env vs s.myMap s.drawn ∧
      (runVisits (iterateFn env) vs s).1.drawn = s.drawn + vs.length := by
  induction vs generalizing s with
  | nil =>
    simp only [runVisits] at h
    simp [runVisits, registerAll, h]
  | cons v vs ih =>
    obtain ⟨path, info, err⟩ := v
    cases err with
    | true => simp [runVisits, iterateFn] at h
    | false =>
      cases info with
      | none => simp [runVisits, iterateFn] at h
      | some i =>
        simp only [runVisits, iterateFn, Bool.false_eq_true, if_false] at h ⊢
        obtain ⟨h1, h2, h3, h4⟩ := ih _ h
        refine ⟨?_, h2, ?_, ?_⟩
        · intro v hv
          rcases List.mem_cons.mp hv with rfl | hv
          · rfl
          · exact h1 v hv
        · rw [h3]
          rfl
        · rw [h4]
          simp only [List.length_cons]
          omega

theorem get_registerAll (env : Env) (k : String) :
    ∀ (vs : List Visit) (m : Registry) (d : Nat),
      Registry.get (registerAll env vs m d) k
        = match lastVisit k vs with
          | some i => env.uuidNew (d + i)
          | none => m.get k := by
  intro vs
  induction vs with
  | nil => intro m d; rfl
  | cons v vs ih =>
    intro m d
    simp only [registerAll, lastVisit]
    rw [ih]
    cases hl : lastVisit k vs with
    | some i =>
      simp only
      congr 1
      omega
    | none =>
      simp only
      by_cases hk : v.name = k
      · simp [hk, Registry.get, Registry.set, List.lookup]
      · have hk' : (k == v.name) = false := by
          simp only [beq_eq_false_iff_ne, ne_eq]
          exact fun h => hk h.symm
        simp [hk, Registry.get, Registry.set, List.lookup, hk']

theorem lastVisit_none (k : String) :
    ∀ (vs : List Visit), lastVisit k vs = none → ∀ v ∈ vs, v.name ≠ k := by
  intro vs
  induction vs with
  | nil => intro _ v hv; simp at hv
  | cons u us ih =>
    intro h v hv
    simp only [lastVisit] at h
    cases hl : lastVisit k us with
    | some i0 => simp [hl] at h
    | none =>
      rw [hl] at h
      simp only at h
      by_cases hu : u.name = k
      · simp [hu] at h
      · rcases List.mem_cons.mp hv with rfl | hv
        · exact hu
        · exact ih hl v hv

theorem lastVisit_spec (k : String) :
    ∀ (vs : List Visit) (i : Nat), lastVisit k vs = some i →
      vs[i]?.map Visit.name = some k ∧ ∀ j, i < j → vs[j]?.map Visit.name ≠ some k := by
  intro vs
  induction vs with
  | nil => intro i h; simp [lastVisit] at h
  | cons v vs ih =>
    intro i h
    simp only [lastVisit] at h
    cases hl : lastVisit k vs with
    | some i0 =>
      rw [hl] at h
      simp only [Option.some.injEq] at h
      subst h
      obtain ⟨h1, h2⟩ := ih i0 hl
      refine ⟨by simpa using h1, ?_⟩
      intro j hj
      obtain ⟨j0, rfl⟩ : ∃ j0, j = j0 + 1 := ⟨j - 1, by omega⟩
      simpa using h2 j0 (by omega)
    | none =>
      rw [hl] at h
      simp only at h
      by_cases hk : v.name = k
      · simp only [hk, if_true, Option.some.injEq] at h
        subst h
        refine ⟨by simp [hk], ?_⟩
        intro j hj
        obtain ⟨j0, rfl⟩ : ∃ j0, j = j0 + 1 := ⟨j - 1, by omega⟩
        simp only [List.getElem?_cons_succ]
        intro hc
        cases hg : vs[j0]? with
        | none => simp [hg] at hc
        | some w =>
          simp only [hg, Option.map_some', Option.some.injEq] at hc
          exact lastVisit_none k vs hl w (List.getElem?_mem hg) hc
      · simp [hk] at h

theorem lastVisit_isSome (k : String) (vs : List Visit) (v : Visit) (hv : v ∈ vs)
    (hk : v.name = k) : ∃ i, lastVisit k vs = some i := by
  cases h : lastVisit k vs with
  | some i => exact ⟨i, rfl⟩
  | none => exact absurd hk (lastVisit_none k vs h v hv)

/-! ## A run of main -/

theorem regularFiles_append (l1 l2 : List Visit) :
    regularFiles (l1 ++ l2) = regularFiles l1 ++ regularFiles l2 := by
  simp [regularFiles, List.filterMap_append]

theorem beforeError_of_no_error (vs : List Visit) (h : ∀ v ∈ vs, v.err = false) :
    beforeError vs = vs :=
  takeWhile_all _ vs (fun v hv => by simp [h v hv])

/-- Creating a file among the entries of a directory reports no new error and
keeps every regular file at its path. -/
theorem create_visits (name : String) (content : List Byte) (path : String) :
    ∀ (es es1 : Entries), Entries.create name content es = some es1 →
      ((∀ v ∈ visitsEntries path es, v.err = false) →
        ∀ v ∈ visitsEntries path es1, v.err = false) ∧
      (∀ f ∈ regularFiles (visitsEntries path es),
        ∃ info1, (f.1, info1) ∈ regularFiles (visitsEntries path es1))
  | .nil, es1, h => by
    simp only [Entries.create, Option.some.injEq] at h
    subst h
    constructor
    · intro _ v hv
      simp only [visitsEntries, newFile, visits, List.append_nil, List.mem_singleton] at hv
      rw [hv]
    · intro f hf
      simp [visitsEntries, regularFiles] at hf
  | .cons n node rest, es1, h => by
    simp only [Entries.create] at h
    by_cases hn : n = name
    · rw [if_pos hn] at h
      cases node with
      | file size c =>
        simp only [Option.some.injEq] at h
        subst h
        constructor
        · intro h0 v hv
          simp only [visitsEntries, List.mem_append] at hv h0
          rcases hv with hv | hv
          · simp only [newFile, visits, List.mem_singleton] at hv
            rw [hv]
          · exact h0 v (Or.inr hv)
        · intro f hf
          simp only [visitsEntries, regularFiles_append, List.mem_append] at hf ⊢
          rcases hf with hf | hf
          · refine ⟨⟨n, false, true, content.length, some content⟩, Or.inl ?_⟩
            simp only [visits, regularFiles, Node.info, List.filterMap_cons, if_true,
              List.filterMap_nil, List.mem_singleton] at hf
            rw [hf]
            simp [visits, newFile, regularFiles, Node.info]
          · exact ⟨f.2, Or.inr hf⟩
      | other =>
        simp only [Option.some.injEq] at h
        subst h
        exact ⟨fun h0 => h0, fun f hf => ⟨f.2, hf⟩⟩
      | dir r es0 => simp at h
      | broken => simp at h
    · rw [if_neg hn] at h
      by_cases hlt : nameLt name n = true
      · rw [if_pos hlt] at h
        simp only [Option.some.injEq] at h
        subst h
        constructor
        · intro h0 v hv
          rw [visitsEntries] at hv
          rcases List.mem_append.mp hv with hv | hv
          · simp only [newFile, visits, List.mem_singleton] at hv
            rw [hv]
          · exact h0 v hv
        · intro f hf
          refine ⟨f.2, ?_⟩
          rw [visitsEntries, regularFiles_append]
          exact List.mem_append.mpr (Or.inr hf)
      · rw [if_neg hlt] at h
        cases hc : Entries.create name content rest with
        | none => simp [hc] at h
        | some rest1 =>
          rw [hc] at h
          simp only [Option.map_some', Option.some.injEq] at h
          subst h
          obtain ⟨ih1, ih2⟩ := create_visits name content path rest rest1 hc
          constructor
          · intro h0 v hv
            simp only [visitsEntries, List.mem_append] at hv h0
            rcases hv with hv | hv
            · exact h0 v (Or.inl hv)
            · exact ih1 (fun w hw => h0 w (Or.inr hw)) v hv
          · intro f hf
            simp only [visitsEntries, regularFiles_append, List.mem_append] at hf ⊢
            rcases hf with hf | hf
            · exact ⟨f.2, Or.inl hf⟩
            · obtain ⟨i1, hi1⟩ := ih2 f hf
              exact ⟨i1, Or.inr hi1⟩

/-- Writing a file into the root directory reports no new error to a later
walk and keeps every regular file at its path. -/
theorem createFile_visits (name : String) (content : List Byte) (root : String)
    (tree tree1 : Node) (h : createFile name content tree = some tree1) :
    ((∀ v ∈ Visits root tree, v.err = false) → ∀ v ∈ Visits root tree1, v.err = false) ∧
      (∀ f ∈ regularFiles (Visits root tree),
        ∃ info1, (f.1, info1) ∈ regularFiles (Visits root tree1)) := by
  cases tree with
  | file size c => simp [createFile] at h
  | other => simp [createFile] at h
  | broken => simp [createFile] at h
  | dir readable es =>
    simp only [createFile] at h
    cases hc : Entries.create name content es with
    | none => simp [hc] at h
    | some es1 =>
      rw [hc] at h
      simp only [Option.map_some', Option.some.injEq] at h
      subst h
      by_cases hr : root = ""
      · simp only [Visits, Lstat, hr, if_true]
        exact ⟨fun h0 => h0, fun f hf => ⟨f.2, hf⟩⟩
      · obtain ⟨h1, h2⟩ := create_visits name content root es es1 hc
        simp only [Visits, Lstat, hr, if_false, visits]
        cases readable with
        | false => exact ⟨fun h0 => h0, fun f hf => ⟨f.2, hf⟩⟩
        | true =>
          simp only [if_true, Bool.not_true]
          constructor
          · intro h0 v hv
            rcases List.mem_cons.mp hv with hv | hv
            · rw [hv]
            · exact h1 (fun w hw => h0 w (List.mem_cons_of_mem _ hw)) v hv
          · intro f hf
            rw [← List.singleton_append, regularFiles_append] at hf ⊢
            rcases List.mem_append.mp hf with hf | hf
            · exact ⟨f.2, List.mem_append.mpr (Or.inl hf)⟩
            · obtain ⟨i1, hi1⟩ := h2 f hf
              exact ⟨i1, List.mem_append.mpr (Or.inr hi1)⟩

/-- What a run that writes both documents went through. -/
theorem main_done (env : Env) (root : String) (tree : Node) (pkl : PackingList)
    (am : AssetMap) (h : (main env root tree).outcome = .done pkl am) :
    (iterate env root tree ⟨Registry.set [] "UUID" (env.uuidNew 0), 1, false⟩).fatal = false ∧
      (main env root tree).myMap
        = (iterate env root tree ⟨Registry.set [] "UUID" (env.uuidNew 0), 1, false⟩).myMap ∧
      ∃ tree1 tree2,
        createPackingList env root (main env root tree).myMap tree = some (pkl, tree1) ∧
        createAssetmap env root (main env root tree).myMap tree1 = some (am, tree2) := by
  by_cases h1 : statFails (Lstat root tree) = true
  · simp [main, h1] at h
  · by_cases h2 : hasEntry (Lstat root tree) = false
    · simp [main, h1, h2] at h
    · cases h3 : (iterate env root tree
          ⟨Registry.set [] "UUID" (env.uuidNew 0), 1, false⟩).fatal with
      | true => simp [main, h1, h2, h3] at h
      | false =>
        cases hp : createPackingList env root (iterate env root tree
            ⟨Registry.set [] "UUID" (env.uuidNew 0), 1, false⟩).myMap tree with
        | none => simp [main, h1, h2, h3, hp] at h
        | some r =>
          obtain ⟨pkl0, tree1⟩ := r
          cases ha : createAssetmap env root (iterate env root tree
              ⟨Registry.set [] "UUID" (env.uuidNew 0), 1, false⟩).myMap tree1 with
          | none => simp [main, h1, h2, h3, hp, ha] at h
          | some r2 =>
            obtain ⟨am0, tree2⟩ := r2
            have hm : main env root tree
                = ⟨.done pkl0 am0, tree2,
                    (iterate env root tree
                      ⟨Registry.set [] "UUID" (env.uuidNew 0), 1, false⟩).myMap,
                    (iterate env root tree
                      ⟨Registry.set [] "UUID" (env.uuidNew 0), 1, false⟩).drawn,
                    ["iterate", "createPackingList", "createAssetmap"]⟩ := by
              simp [main, h1, h2, h3, hp, ha]
            rw [hm] at h ⊢
            simp only [Outcome.done.injEq] at h
            obtain ⟨rfl, rfl⟩ := h
            exact ⟨rfl, rfl, tree1, tree2, hp, ha⟩

/-- In a run that writes both documents, `iterate` met no error and the map
holds the package identifier under `UUID`, overwritten by a fresh identifier
for every entry presented, in order. -/
theorem main_registry (env : Env) (root : String) (tree : Node) (pkl : PackingList)
    (am : AssetMap) (h : (main env root tree).outcome = .done pkl am) :
    (∀ v ∈ Visits root tree, v.err = false) ∧
      (main env root tree).myMap
        = registerAll env (Visits root tree) (Registry.set [] "UUID" (env.uuidNew 0)) 1 := by
  obtain ⟨hfatal, hmap, _⟩ := main_done env root tree pkl am h
  unfold iterate at hfatal hmap
  rw [Walk_eq_runVisits] at hfatal hmap
  obtain ⟨h1, _, h3, _⟩ := runVisits_iterateFn env (Visits root tree) _ hfatal
  exact ⟨h1, hmap.trans h3⟩

/-- The documents of a run that writes both: the packing list lists the
regular files of the tree, the asset map those of the tree after
`Packinglist.xml` was written, and every regular file of the tree is still a
regular file at the same path then. -/
theorem main_documents (env : Env) (root : String) (tree : Node) (pkl : PackingList)
    (am : AssetMap) (h : (main env root tree).outcome = .done pkl am) :
    pkl.AssetList.Assets
        = (regularFiles (Visits root tree)).map
            (fun f => pklAsset env root (main env root tree).myMap f.1 f.2) ∧
      ∃ tree1,
        createFile "Packinglist.xml" (xmlHeader ++ env.marshalPackingList pkl) tree
          = some tree1 ∧
        am.AssetList.Assets
          = (regularFiles (Visits root tree1)).map
              (fun f => amAsset root (main env root tree).myMap f.1 f.2) ∧
        ∀ f ∈ regularFiles (Visits root tree),
          ∃ info1, (f.1, info1) ∈ regularFiles (Visits root tree1) := by
  obtain ⟨hnoerr, _⟩ := main_registry env root tree pkl am h
  obtain ⟨_, _, tree1, tree2, hp, ha⟩ := main_done env root tree pkl am h
  unfold createPackingList at hp
  simp only at hp
  cases hc : createFile "Packinglist.xml"
      (xmlHeader ++ env.marshalPackingList
        (packingList env root (main env root tree).myMap tree)) tree with
  | none => simp [hc] at hp
  | some t1 =>
    rw [hc] at hp
    simp only [Option.some.injEq, Prod.mk.injEq] at hp
    obtain ⟨hpkl, rfl⟩ := hp
    obtain ⟨he, hfiles⟩ := createFile_visits _ _ root tree t1 hc
    unfold createAssetmap at ha
    simp only at ha
    cases hc2 : createFile "assetmap.xml"
        (xmlHeader ++ env.marshalAssetMap
          (assetMap env root (main env root tree).myMap t1)) t1 with
    | none => simp [hc2] at ha
    | some t2 =>
      rw [hc2] at ha
      simp only [Option.some.injEq, Prod.mk.injEq] at ha
      obtain ⟨ham, _⟩ := ha
      refine ⟨?_, t1, ?_, ?_, hfiles⟩
      · rw [← hpkl, packingList_assets, beforeError_of_no_error _ hnoerr]
      · rw [← hpkl]
        exact hc
      · rw [← ham, assetMap_assets, beforeError_of_no_error _ (he hnoerr)]

/-- C10: in a run that writes both documents on a tree whose names are names
a directory can list, any two regular files of the tree at different paths
with the same base name have assets in the packing list, and in the asset
map, that carry one and the same `Id`: `urn:uuid:` followed by the
identifier `iterate` drew for the last entry of that name it visited (entry
`i` of the traversal receives draw `i + 1`, draw `0` being the package
identifier). -/
theorem same_name_same_id (env : Env) (root : String) (tree : Node) (pkl : PackingList)
    (am : AssetMap) (f g : String × FileInfo)
    (hrun : (main env root tree).outcome = .done pkl am)
    (hvalid : tree.namesValid = true)
    (hf : f ∈ regularFiles (Visits root tree)) (hg : g ∈ regularFiles (Visits root tree))
    (_hpath : f.1 ≠ g.1) (hbase : Base f.1 = Base g.1) :
    ∃ i,
      (Visits root tree)[i]?.map Visit.name = some (Base f.1) ∧
      (∀ j, i < j → (Visits root tree)[j]?.map Visit.name ≠ some (Base f.1)) ∧
      (main env root tree).myMap.get (Base f.1) = env.uuidNew (i + 1) ∧
      (∃ a ∈ pkl.AssetList.Assets,
        a = pklAsset env root (main env root tree).myMap f.1 f.2 ∧
          a.Id = "urn:uuid:" ++ env.uuidNew (i + 1)) ∧
      (∃ a ∈ pkl.AssetList.Assets,
        a = pklAsset env root (main env root tree).myMap g.1 g.2 ∧
          a.Id = "urn:uuid:" ++ env.uuidNew (i + 1)) ∧
      (∃ a ∈ am.AssetList.Assets, ∃ info1,
        a = amAsset root (main env root tree).myMap f.1 info1 ∧
          a.Id = "urn:uuid:" ++ env.uuidNew (i + 1)) ∧
      (∃ a ∈ am.AssetList.Assets, ∃ info1,
        a = amAsset root (main env root tree).myMap g.1 info1 ∧
          a.Id = "urn:uuid:" ++ env.uuidNew (i + 1)) := by
  obtain ⟨_, hmap⟩ := main_registry env root tree pkl am hrun
  obtain ⟨hpkl, tree1, _, ham, hkeep⟩ := main_documents env root tree pkl am hrun
  obtain ⟨v, hv, hvp, hvi, _⟩ := mem_regularFiles.mp hf
  have hname : v.name = Base f.1 := by
    have := Visits_name root tree hvalid v hv f.2 hvi
    simp only [Visit.name, hvi, this, hvp]
  obtain ⟨i, hi⟩ := lastVisit_isSome (Base f.1) (Visits root tree) v hv hname
  obtain ⟨hi1, hi2⟩ := lastVisit_spec (Base f.1) (Visits root tree) i hi
  have hget : (main env root tree).myMap.get (Base f.1) = env.uuidNew (i + 1) := by
    rw [hmap, get_registerAll, hi, Nat.add_comm]
  have hgetg : (main env root tree).myMap.get (Base g.1) = env.uuidNew (i + 1) := by
    rw [← hbase]
    exact hget
  obtain ⟨fi, hfi⟩ := hkeep f hf
  obtain ⟨gi, hgi⟩ := hkeep g hg
  refine ⟨i, hi1, hi2, hget, ?_, ?_, ?_, ?_⟩
  · refine ⟨_, ?_, rfl, ?_⟩
    · rw [hpkl]
      exact List.mem_map.mpr ⟨f, hf, rfl⟩
    · simp only [pklAsset, hget]
  · refine ⟨_, ?_, rfl, ?_⟩
    · rw [hpkl]
      exact List.mem_map.mpr ⟨g, hg, rfl⟩
    · simp only [pklAsset, hgetg]
  · refine ⟨_, ?_, fi, rfl, ?_⟩
    · rw [ham]
      exact List.mem_map.mpr ⟨(f.1, fi), hfi, rfl⟩
    · simp only [amAsset, hget]
  · refine ⟨_, ?_, gi, rfl, ?_⟩
    · rw [ham]
      exact List.mem_map.mpr ⟨(g.1, gi), hgi, rfl⟩
    · simp only [amAsset, hgetg]

/-- Witness of C10: `pkg/a.txt` and `pkg/sub/a.txt` of the sample tree; the
last entry named `a.txt` is entry `3` of the traversal, and both documents
carry its identifier for both files. -/
theorem same_name_same_id_witness :
    ∃ i,
      (Visits "pkg" sampleTree)[i]?.map Visit.name = some (Base "pkg/a.txt") ∧
      (∀ j, i < j → (Visits "pkg" sampleTree)[j]?.map Visit.name ≠ some (Base "pkg/a.txt")) ∧
      (main sampleEnv "pkg" sampleTree).myMap.get (Base "pkg/a.txt")
        = sampleEnv.uuidNew (i + 1) ∧
      (∃ a ∈ samplePackingList.AssetList.Assets,
        a = pklAsset sampleEnv "pkg" (main sampleEnv "pkg" sampleTree).myMap "pkg/a.txt"
              ⟨"a.txt", false, true, 3, some [1, 2, 3]⟩ ∧
          a.Id = "urn:uuid:" ++ sampleEnv.uuidNew (i + 1)) ∧
      (∃ a ∈ samplePackingList.AssetList.Assets,
        a = pklAsset sampleEnv "pkg" (main sampleEnv "pkg" sampleTree).myMap "pkg/sub/a.txt"
              ⟨"a.txt", false, true, 0, some []⟩ ∧
          a.Id = "urn:uuid:" ++ sampleEnv.uuidNew (i + 1)) ∧
      (∃ a ∈ sampleAssetMap.AssetList.Assets, ∃ info1,
        a = amAsset "pkg" (main sampleEnv "pkg" sampleTree).myMap "pkg/a.txt" info1 ∧
          a.Id = "urn:uuid:" ++ sampleEnv.uuidNew (i + 1)) ∧
      (∃ a ∈ sampleAssetMap.AssetList.Assets, ∃ info1,
        a = amAsset "pkg" (main sampleEnv "pkg" sampleTree).myMap "pkg/sub/a.txt" info1 ∧
          a.Id = "urn:uuid:" ++ sampleEnv.uuidNew (i + 1)) :=
  same_name_same_id sampleEnv "pkg" sampleTree samplePackingList sampleAssetMap
    ("pkg/a.txt", ⟨"a.txt", false, true, 3, some [1, 2, 3]⟩)
    ("pkg/sub/a.txt", ⟨"a.txt", false, true, 0, some []⟩)
    (by decide) (by decide) (by decide) (by decide) (by decide) (by decide)

/-! ## Where a run departs from the specification -/

/-- The sample generator never returns the empty string and never repeats a
value. -/
theorem sampleEnv_uuidNew (m n : Nat) :
    sampleEnv.uuidNew n ≠ "" ∧ (sampleEnv.uuidNew m = sampleEnv.uuidNew n → m = n) := by
  constructor
  · intro h
    have := congrArg String.length h
    simp [sampleEnv, String.length] at this
  · intro h
    have := congrArg String.length h
    simpa [sampleEnv, String.length] using this

/-- C2 at a failing input: `main` on a directory holding the single file
`a.txt`. The packing list has one asset; the asset map has two, the first for
`Packinglist.xml`, which `createPackingList` wrote before `createAssetmap`
walked the directory. -/
theorem assetMap_lists_one_more :
    (main sampleEnv "pkg" oneFileTree).outcome.packingListIds = ["urn:uuid:xxx"] ∧
      (main sampleEnv "pkg" oneFileTree).outcome.assetMapIds
        = ["urn:uuid:", "urn:uuid:xxx"] ∧
      (main sampleEnv "pkg" oneFileTree).outcome.assetMapPaths
        = [["Packinglist.xml"], ["a.txt"]] ∧
      (main sampleEnv "pkg" oneFileTree).outcome.packingListIds.length
        ≠ (main sampleEnv "pkg" oneFileTree).outcome.assetMapIds.length := by
  decide

/-- C5 at a failing input: `main` on the sample tree. `iterate` ran before
`Packinglist.xml` existed, so the map has no entry for it, and the asset the
asset map holds for it has the bare `Id` `urn:uuid:`. -/
theorem assetMap_bare_id :
    (main sampleEnv "pkg" sampleTree).outcome = .done samplePackingList sampleAssetMap ∧
      (main sampleEnv "pkg" sampleTree).myMap.lookup "Packinglist.xml" = none ∧
      sampleAssetMap.AssetList.Assets.head?
        = some { Id := "urn:uuid:", AnnotationText := "pkg",
                 ChunkList := { Chunk := [{ Path := "Packinglist.xml" }] } } := by
  decide

/-- C6 at a failing input: `main` on a directory holding a file named `UUID`.
`iterate` stores the identifier of that file under the key `UUID`, over the
package identifier, so the root `Id` of both documents is the `Id` of the
asset of that file. -/
theorem package_id_overwritten :
    (main sampleEnv "pkg" uuidFileTree).myMap.get "UUID" = sampleEnv.uuidNew 2 ∧
      (main sampleEnv "pkg" uuidFileTree).myMap.get "UUID" ≠ sampleEnv.uuidNew 0 ∧
      (main sampleEnv "pkg" uuidFileTree).outcome.rootIds = ["urn:uuid:xxx", "urn:uuid:xxx"] ∧
      (main sampleEnv "pkg" uuidFileTree).outcome.packingListIds = ["urn:uuid:xxx"] ∧
      (main sampleEnv "pkg" uuidFileTree).outcome.assetMapIds
        = ["urn:uuid:", "urn:uuid:xxx"] := by
  decide

/-- When no entry of the traversal is named `UUID`, the key `UUID` still
holds the package identifier after the run. -/
theorem package_id_kept (env : Env) (root : String) (tree : Node) (pkl : PackingList)
    (am : AssetMap) (h : (main env root tree).outcome = .done pkl am)
    (hno : ∀ v ∈ Visits root tree, v.name ≠ "UUID") :
    (main env root tree).myMap.get "UUID" = env.uuidNew 0 ∧
      pkl.Id = "urn:uuid:" ++ env.uuidNew 0 ∧ am.Id = "urn:uuid:" ++ env.uuidNew 0 := by
  obtain ⟨_, hmap⟩ := main_registry env root tree pkl am h
  obtain ⟨_, _, tree1, tree2, hp, ha⟩ := main_done env root tree pkl am h
  have hl : lastVisit "UUID" (Visits root tree) = none := by
    cases hq : lastVisit "UUID" (Visits root tree) with
    | none => rfl
    | some i =>
      obtain ⟨h1, _⟩ := lastVisit_spec "UUID" _ i hq
      cases hv : (Visits root tree)[i]? with
      | none => simp [hv] at h1
      | some v =>
        simp only [hv, Option.map_some', Option.some.injEq] at h1
        exact absurd h1 (hno v (List.getElem?_mem hv))
  have hget : (main env root tree).myMap.get "UUID" = env.uuidNew 0 := by
    rw [hmap, get_registerAll, hl]
    rfl
  refine ⟨hget, ?_, ?_⟩
  · unfold createPackingList at hp
    simp only at hp
    split at hp
    · simp at hp
    · simp only [Option.some.injEq, Prod.mk.injEq] at hp
      rw [← hp.1]
      simp only [packingList, hget]
  · unfold createAssetmap at ha
    simp only at ha
    split at ha
    · simp at ha
    · simp only [Option.some.injEq, Prod.mk.injEq] at ha
      rw [← ha.1]
      simp only [assetMap, hget]

/-- In a run that writes both documents, every asset of the packing list has
an identifier drawn by `iterate` after `urn:uuid:`. -/
theorem packingList_ids_drawn (env : Env) (root : String) (tree : Node) (pkl : PackingList)
    (am : AssetMap) (h : (main env root tree).outcome = .done pkl am)
    (hvalid : tree.namesValid = true) :
    ∀ a ∈ pkl.AssetList.Assets, ∃ i, i < (Visits root tree).length ∧
      a.Id = "urn:uuid:" ++ env.uuidNew (i + 1) := by
  obtain ⟨_, hmap⟩ := main_registry env root tree pkl am h
  obtain ⟨hpkl, _⟩ := main_documents env root tree pkl am h
  intro a ha
  rw [hpkl] at ha
  obtain ⟨f, hf, rfl⟩ := List.mem_map.mp ha
  obtain ⟨v, hv, hvp, hvi, _⟩ := mem_regularFiles.mp hf
  have hname : v.name = Base f.1 := by
    have := Visits_name root tree hvalid v hv f.2 hvi
    simp only [Visit.name, hvi, this, hvp]
  obtain ⟨i, hi⟩ := lastVisit_isSome (Base f.1) (Visits root tree) v hv hname
  obtain ⟨hi1, _⟩ := lastVisit_spec (Base f.1) (Visits root tree) i hi
  refine ⟨i, ?_, ?_⟩
  · by_contra hlt
    rw [List.getElem?_eq_none (by omega)] at hi1
    simp at hi1
  · simp only [pklAsset, hmap, get_registerAll, hi, Nat.add_comm]

/-! ## The fuel of the loops is enough -/

/-- More fuel than the length of the path changes nothing in `cleanLoop`. -/
theorem cleanLoop_fuel (rooted : Bool) :
    ∀ (fuel extra : Nat) (path out : List Char) (dotdot : Nat), path.length ≤ fuel →
      cleanLoop rooted (fuel + extra) path out dotdot = cleanLoop rooted fuel path out dotdot := by
  intro fuel
  induction fuel with
  | zero =>
    intro extra path out dotdot h
    have : path = [] := List.length_eq_zero.mp (by omega)
    subst this
    rw [cleanLoop_nil, cleanLoop_nil]
  | succ fuel ih =>
    intro extra path out dotdot h
    cases path with
    | nil => rw [cleanLoop_nil, cleanLoop_nil]
    | cons c rest =>
      simp only [List.length_cons] at h
      have hrest : rest.length ≤ fuel := by omega
      have htail : rest.tail.length ≤ fuel := by
        simp only [List.length_tail]
        omega
      have hdrop : (rest.dropWhile (fun d => decide (d ≠ '/'))).length ≤ fuel :=
        le_trans (length_dropWhile_le _ rest) hrest
      rw [show fuel + 1 + extra = (fuel + extra) + 1 by omega]
      simp only [cleanLoop]
      rw [ih extra rest out dotdot hrest, ih extra rest.tail _ dotdot htail,
        ih extra rest.tail _ _ htail, ih extra rest.tail out dotdot htail, ih extra _ _ dotdot hdrop]

/-- More fuel than one round per digit changes nothing in `formatBits`. -/
theorem formatBits_fuel :
    ∀ (fuel extra u : Nat) (acc : List Char), u < fuel →
      formatBits (fuel + extra) u acc = formatBits fuel u acc := by
  intro fuel
  induction fuel with
  | zero => intro extra u acc h; omega
  | succ fuel ih =>
    intro extra u acc h
    rw [show fuel + 1 + extra = (fuel + extra) + 1 by omega]
    simp only [formatBits]
    by_cases hu : u < 10
    · rw [if_pos hu, if_pos hu]
    · rw [if_neg hu, if_neg hu]
      exact ih extra (u / 10) _ (by omega)

/-- More fuel than one round per 64-byte chunk changes nothing in
`sha1Blocks`. -/
theorem sha1Blocks_fuel :
    ∀ (fuel extra : Nat) (h : Vars) (p : List Nat), p.length / 64 ≤ fuel →
      sha1Blocks (fuel + extra) h p = sha1Blocks fuel h p := by
  intro fuel
  induction fuel with
  | zero =>
    intro extra h p hp
    have hlt : ¬ 64 ≤ p.length := by omega
    cases extra with
    | zero => rfl
    | succ e =>
      rw [show 0 + (e + 1) = e + 1 by omega]
      simp only [sha1Blocks, if_neg hlt]
  | succ fuel ih =>
    intro extra h p hp
    rw [show fuel + 1 + extra = (fuel + extra) + 1 by omega]
    simp only [sha1Blocks]
    by_cases h64 : 64 ≤ p.length
    · rw [if_pos h64, if_pos h64]
      apply ih
      simp only [List.length_drop]
      omega
    · rw [if_neg h64, if_neg h64]

/-- The padded message is a whole number of 64-byte chunks. -/
theorem sha1_padded_length (msg : List Byte) :
    (msg.map (fun b => b.val) ++ sha1Padding msg.length).length % 64 = 0 := by
  simp only [List.length_append, List.length_map, sha1Padding, List.length_cons,
    List.length_replicate, bigEndian_length]
  split <;> omega

/-! ## The Go digest is the digest of FIPS 180-4 -/

theorem ch_or_eq_xor (x y z : Nat) :
    (x &&& y) ||| (not32 x &&& z) = fipsCh x y z := by
  unfold fipsCh not32
  apply Nat.eq_of_testBit_eq
  intro i
  simp only [Nat.testBit_or, Nat.testBit_and, Nat.testBit_xor, Nat.testBit_mod_two_pow,
    show (0xFFFFFFFF : Nat) = 2 ^ 32 - 1 by norm_num, Nat.testBit_two_pow_sub_one]
  cases x.testBit i <;> cases y.testBit i <;> cases z.testBit i <;>
    cases decide (i < 32) <;> rfl

theorem maj_eq (x y z : Nat) :
    ((x ||| y) &&& z) ||| (x &&& y) = fipsMaj x y z := by
  unfold fipsMaj
  apply Nat.eq_of_testBit_eq
  intro i
  simp only [Nat.testBit_or, Nat.testBit_and, Nat.testBit_xor]
  cases x.testBit i <;> cases y.testBit i <;> cases z.testBit i <;> rfl

/-- A round of the Go code is a round of the standard. -/
theorem sha1Round_eq_fipsStep (w : List Nat) (v : Vars) (t : Nat) :
    sha1Round v t (w.getD t 0) = fipsStep w v t := by
  have hadd : ∀ r f e x k : Nat,
      add32 (add32 (add32 (add32 r f) e) x) k = add32 (add32 (add32 (add32 r f) e) k) x := by
    intro r f e x k
    simp only [add32]
    omega
  unfold sha1Round fipsStep fipsF fipsK
  simp only [hadd]
  by_cases h1 : t < 20
  · simp only [h1, if_true, show t ≤ 19 by omega, ch_or_eq_xor]
  · by_cases h2 : t < 40
    · simp only [h1, h2, if_true, if_false, show ¬ t ≤ 19 by omega, show t ≤ 39 by omega,
        fipsParity]
    · by_cases h3 : t < 60
      · simp only [h1, h2, h3, if_true, if_false, show ¬ t ≤ 19 by omega,
          show ¬ t ≤ 39 by omega, show t ≤ 59 by omega, maj_eq]
      · simp only [h1, h2, h3, if_false, show ¬ t ≤ 19 by omega, show ¬ t ≤ 39 by omega,
          show ¬ t ≤ 59 by omega, fipsParity]

theorem add32_comm (a b : Nat) : add32 a b = add32 b a := by
  simp only [add32, Nat.add_comm]

theorem sha1Rounds_eq_foldl :
    ∀ (ws : List Nat) (i : Nat) (v : Vars),
      sha1Rounds ws i v
        = (List.range ws.length).foldl (fun v t => sha1Round v (i + t) (ws.getD t 0)) v := by
  intro ws
  induction ws with
  | nil => intro i v; rfl
  | cons w ws ih =>
    intro i v
    simp only [sha1Rounds, List.length_cons, List.range_succ_eq_map, List.foldl_cons,
      List.foldl_map, List.getD_cons_zero, Nat.add_zero, List.getD_cons_succ]
    rw [ih]
    congr 1
    funext v t
    rw [show i + 1 + t = i + Nat.succ t by omega]

theorem fipsSchedule_length (m : List Nat) (n : Nat) :
    (fipsSchedule m n).length = m.length + n := by
  induction n with
  | zero => rfl
  | succ n ih =>
    simp only [fipsSchedule, List.length_append, ih, List.length_singleton]
    omega

theorem getD_reverse (l : List Nat) (j : Nat) (h : j < l.length) :
    l.reverse.getD j 0 = l.getD (l.length - 1 - j) 0 := by
  simp only [List.getD_eq_getElem?_getD, List.getElem?_reverse h]

/-- The schedule the Go code extends word by word is the message schedule of
the standard. -/
theorem extendSchedule_eq (m : List Nat) (hm : m.length = 16) :
    ∀ (n k : Nat),
      extendSchedule n (fipsSchedule m k).reverse = (fipsSchedule m (k + n)).reverse := by
  intro n
  induction n with
  | zero => intro k; rfl
  | succ n ih =>
    intro k
    have hlen : (fipsSchedule m k).length = 16 + k := by
      rw [fipsSchedule_length, hm]
    have hstep : rotateLeft32
          ((fipsSchedule m k).reverse.getD 2 0 ^^^ (fipsSchedule m k).reverse.getD 7 0 ^^^
            (fipsSchedule m k).reverse.getD 13 0 ^^^ (fipsSchedule m k).reverse.getD 15 0) 1
          :: (fipsSchedule m k).reverse
        = (fipsSchedule m (k + 1)).reverse := by
      rw [getD_reverse _ 2 (by omega), getD_reverse _ 7 (by omega),
        getD_reverse _ 13 (by omega), getD_reverse _ 15 (by omega), hlen]
      simp only [fipsSchedule, List.reverse_append, List.reverse_cons, List.reverse_nil,
        List.nil_append, List.singleton_append]
      rw [show 16 + k - 1 - 2 = 16 + k - 3 by omega, show 16 + k - 1 - 7 = 16 + k - 8 by omega,
        show 16 + k - 1 - 13 = 16 + k - 14 by omega,
        show 16 + k - 1 - 15 = 16 + k - 16 by omega]
    simp only [extendSchedule]
    rw [hstep, ih (k + 1), show k + 1 + n = k + (n + 1) by omega]

theorem chunkWords_length (p : List Nat) : (chunkWords p).length = 16 := by
  simp [chunkWords]

theorem schedule_eq (p : List Nat) : schedule p = fipsSchedule (chunkWords p) 64 := by
  unfold schedule
  have h : extendSchedule 64 (chunkWords p).reverse
      = (fipsSchedule (chunkWords p) 64).reverse :=
    extendSchedule_eq (chunkWords p) (chunkWords_length p) 64 0
  rw [h, List.reverse_reverse]

theorem word_of_bytes (a b c d : Nat) (hb : b < 256) (hc : c < 256) (hd : d < 256) :
    (a <<< 24) ||| (b <<< 16) ||| (c <<< 8) ||| d
      = a * 2 ^ 24 + b * 2 ^ 16 + c * 2 ^ 8 + d := by
  have h1 : a <<< 24 ||| b <<< 16 = 2 ^ 16 * (2 ^ 8 * a + b) := by
    rw [Nat.shiftLeft_eq, Nat.shiftLeft_eq, Nat.mul_comm a,
      ← Nat.mul_add_lt_is_or (show b * 2 ^ 16 < 2 ^ 24 by omega)]
    omega
  have h2 : 2 ^ 16 * (2 ^ 8 * a + b) ||| c <<< 8 = 2 ^ 8 * (2 ^ 16 * a + 2 ^ 8 * b + c) := by
    rw [Nat.shiftLeft_eq, ← Nat.mul_add_lt_is_or (show c * 2 ^ 8 < 2 ^ 16 by omega)]
    omega
  rw [h1, h2, ← Nat.mul_add_lt_is_or (show d < 2 ^ 8 by omega)]
  omega

theorem getD_lt_of_all (p : List Nat) (hp : ∀ x ∈ p, x < 256) (i : Nat) : p.getD i 0 < 256 := by
  rw [List.getD_eq_getElem?_getD]
  cases h : p[i]? with
  | none => simp
  | some x => exact hp x (List.getElem?_mem h)

theorem chunkWords_eq (p : List Nat) (hp : ∀ x ∈ p, x < 256) :
    chunkWords p = (List.range 16).map (fipsWord p) := by
  unfold chunkWords
  apply List.map_congr_left
  intro i _
  exact word_of_bytes _ _ _ _ (getD_lt_of_all p hp _) (getD_lt_of_all p hp _)
    (getD_lt_of_all p hp _)

/-- On a block of bytes, `blockGeneric` computes the hash value the standard
defines. -/
theorem sha1Block_eq_fipsCompress (h : Vars) (p : List Nat) (hp : ∀ x ∈ p, x < 256) :
    sha1Block h p = fipsCompress h p := by
  unfold sha1Block fipsCompress
  simp only
  rw [schedule_eq, chunkWords_eq p hp, sha1Rounds_eq_foldl, fipsSchedule_length]
  simp only [List.length_map, List.length_range, Nat.zero_add, sha1Round_eq_fipsStep]
  simp only [add32_comm h.a, add32_comm h.b, add32_comm h.c, add32_comm h.d, add32_comm h.e]

theorem bigEndian_eq_fipsBytes (n x : Nat) : bigEndian n x = fipsBytes n x := by
  induction n with
  | zero => rfl
  | succ n ih =>
    unfold fipsBytes at ih ⊢
    simp only [bigEndian, List.range_succ_eq_map, List.map_cons, List.map_map, ih,
      Nat.add_sub_cancel, Nat.sub_zero]
    congr 1
    apply List.map_congr_left
    intro i _
    simp only [Function.comp, Nat.succ_eq_add_one]
    rw [show n - (i + 1) = n - 1 - i by omega]

/-- The bytes `checkSum` appends are the padding of the standard. -/
theorem padding_eq (msg : List Nat) : msg ++ sha1Padding msg.length = fipsPad msg := by
  unfold sha1Padding fipsPad
  simp only [bigEndian_eq_fipsBytes, List.append_assoc, List.singleton_append,
    List.cons_append]
  have hz : (if msg.length % 64 < 56 then 56 - msg.length % 64 else 64 + 56 - msg.length % 64)
      - 1 = (119 - msg.length % 64) % 64 := by
    split <;> omega
  rw [hz, Nat.mul_comm msg.length 8]
  simp only [List.nil_append]

theorem foldl_congr_mem {α β : Type} (f g : α → β → α) (l : List β)
    (h : ∀ a, ∀ b ∈ l, f a b = g a b) (a : α) : l.foldl f a = l.foldl g a := by
  induction l generalizing a with
  | nil => rfl
  | cons b t ih =>
    simp only [List.foldl_cons]
    rw [h a b (List.mem_cons_self _ _)]
    exact ih (fun a c hc => h a c (List.mem_cons_of_mem _ hc)) _

/-- The loop of `blockGeneric` processes the blocks of the data one after the
other, all of them. -/
theorem sha1Blocks_eq_foldl (data : List Nat) :
    ∀ (n k : Nat) (h : Vars), 64 * (k + n) ≤ data.length →
      sha1Blocks n h (data.drop (64 * k))
        = (List.range n).foldl (fun h i => sha1Block h (fipsBlock data (k + i))) h := by
  intro n
  induction n with
  | zero => intro k h _; rfl
  | succ n ih =>
    intro k h hlen
    have h64 : 64 ≤ (data.drop (64 * k)).length := by
      simp only [List.length_drop]
      omega
    have hfun : (fun (h : Vars) i => sha1Block h (fipsBlock data (k + 1 + i)))
        = (fun h i => sha1Block h (fipsBlock data (k + Nat.succ i))) := by
      funext h i
      rw [show k + 1 + i = k + Nat.succ i by omega]
    simp only [sha1Blocks, if_pos h64, List.drop_drop]
    rw [show 64 * k + 64 = 64 * (k + 1) by omega, ih (k + 1) _ (by omega),
      List.range_succ_eq_map, List.foldl_cons, List.foldl_map, hfun]
    simp only [fipsBlock, Nat.add_zero]

theorem fipsBlock_lt (data : List Nat) (hd : ∀ x ∈ data, x < 256) (i : Nat) :
    ∀ x ∈ fipsBlock data i, x < 256 := by
  intro x hx
  exact hd x (List.mem_of_mem_drop (List.mem_of_mem_take hx))

theorem fipsBytes_lt (n x : Nat) : ∀ b ∈ fipsBytes n x, b < 256 := by
  intro b hb
  unfold fipsBytes at hb
  obtain ⟨i, _, rfl⟩ := List.mem_map.mp hb
  exact Nat.mod_lt _ (by omega)

theorem fipsPad_lt (msg : List Byte) :
    ∀ x ∈ fipsPad (msg.map fun b => b.val), x < 256 := by
  intro x hx
  unfold fipsPad at hx
  simp only [List.mem_append, List.mem_map, List.mem_singleton, List.mem_replicate] at hx
  rcases hx with ((⟨b, _, rfl⟩ | rfl) | ⟨_, rfl⟩) | hx
  · exact b.isLt
  · omega
  · omega
  · exact fipsBytes_lt _ _ x hx

/-- The digest the Go code computes is the SHA-1 digest of FIPS 180-4, for
every message. -/
theorem sha1Sum_eq_sha1Spec (msg : List Byte) : sha1Sum msg = sha1Spec msg := by
  unfold sha1Sum sha1Spec
  simp only
  have hpad : msg.map (fun b => b.val) ++ sha1Padding msg.length
      = fipsPad (msg.map fun b => b.val) := by
    have := padding_eq (msg.map fun b => b.val)
    rwa [List.length_map] at this
  have hlen : (fipsPad (msg.map fun b => b.val)).length % 64 = 0 := by
    rw [← hpad]
    exact sha1_padded_length msg
  rw [hpad]
  have hblocks := sha1Blocks_eq_foldl (fipsPad (msg.map fun b => b.val))
    ((fipsPad (msg.map fun b => b.val)).length / 64) 0 sha1Init (by omega)
  simp only [Nat.mul_zero, List.drop_zero, Nat.zero_add] at hblocks
  rw [hblocks, foldl_congr_mem _
    (fun h i => fipsCompress h (fipsBlock (fipsPad (msg.map fun b => b.val)) i)) _
    (fun h i _ => sha1Block_eq_fipsCompress h _ (fipsBlock_lt _ (fipsPad_lt msg) i))]
  simp only [bigEndian_eq_fipsBytes]
  rfl

/-- The digest of the 56-byte test message of FIPS 180, two blocks long once
padded. -/
theorem sha1_two_blocks :
    hexEncode (sha1Sum fipsTwoBlockMessage) = "84983e441c3bd26ebaae4aa1f95129e5e54670f1" := by
  decide!

/-- The digest of two hundred bytes `a`, four blocks long once padded. -/
theorem sha1_four_blocks :
    hexEncode (sha1Sum fourBlockMessage) = "e61cfffe0d9195a525fc6cf06ca2d77119c24a40" := by
  decide!

/-- C3: for every regular file processed by `createPackingList` that can be
read, the `Hash` of its asset is what `findHashValue` returns on the bytes of
the file: the lowercase hexadecimal encoding of their SHA-1 digest, as the Go
code computes it and as FIPS 180-4 defines it (every block of the padded
content enters the digest). It is forty characters long, each one of
`0-9a-f`; it is `da39a3ee5e6b4b0d3255bfef95601890afd80709` when the file is
empty, and it takes the published values on `abc`, on the 56-byte test
message of FIPS 180 and on two hundred bytes `a`. -/
theorem asset_hash_sha1 (env : Env) (folderPath : String) (reg : Registry) (tree : Node)
    (f : String × FileInfo) (bytes : List Byte)
    (hf : f ∈ regularFiles (beforeError (Visits folderPath tree)))
    (hread : f.2.content = some bytes) :
    pklAsset env folderPath reg f.1 f.2
        ∈ (packingList env folderPath reg tree).AssetList.Assets ∧
      (pklAsset env folderPath reg f.1 f.2).Hash = findHashValue f.2.content ∧
      (pklAsset env folderPath reg f.1 f.2).Hash = hexEncode (sha1Sum bytes) ∧
      (pklAsset env folderPath reg f.1 f.2).Hash = hexEncode (sha1Spec bytes) ∧
      (pklAsset env folderPath reg f.1 f.2).Hash.length = 40 ∧
      (∀ c ∈ (pklAsset env folderPath reg f.1 f.2).Hash.data, c ∈ "0123456789abcdef".data) ∧
      (bytes = [] → (pklAsset env folderPath reg f.1 f.2).Hash
        = "da39a3ee5e6b4b0d3255bfef95601890afd80709") ∧
      (bytes = asciiBytes "abc" → (pklAsset env folderPath reg f.1 f.2).Hash
        = "a9993e364706816aba3e25717850c26c9cd0d89d") ∧
      (bytes = fipsTwoBlockMessage → (pklAsset env folderPath reg f.1 f.2).Hash
        = "84983e441c3bd26ebaae4aa1f95129e5e54670f1") ∧
      (bytes = fourBlockMessage → (pklAsset env folderPath reg f.1 f.2).Hash
        = "e61cfffe0d9195a525fc6cf06ca2d77119c24a40") := by
  have hh : (pklAsset env folderPath reg f.1 f.2).Hash = hexEncode (sha1Sum bytes) := by
    simp [pklAsset, findHashValue, hread]
  refine ⟨?_, rfl, hh, ?_, ?_, ?_, ?_, ?_, ?_, ?_⟩
  · rw [packingList_assets]
    exact List.mem_map.mpr ⟨f, hf, rfl⟩
  · rw [hh, sha1Sum_eq_sha1Spec]
  · rw [hh, (hexEncode_spec _).1, sha1Sum_length]
  · rw [hh]
    exact (hexEncode_spec _).2
  · intro hb
    rw [hh, hb]
    exact sha1_empty
  · intro hb
    rw [hh, hb]
    exact sha1_abc
  · intro hb
    rw [hh, hb]
    exact sha1_two_blocks
  · intro hb
    rw [hh, hb]
    exact sha1_four_blocks

/-- Witness of C3: the file `pkg/movie.mxf`, two hundred bytes `a`, four
blocks long once padded. -/
theorem asset_hash_sha1_witness :
    pklAsset sampleEnv "pkg" [] "pkg/movie.mxf"
          ⟨"movie.mxf", false, true, 200, some fourBlockMessage⟩
        ∈ (packingList sampleEnv "pkg" [] movieTree).AssetList.Assets ∧
      (pklAsset sampleEnv "pkg" [] "pkg/movie.mxf"
          ⟨"movie.mxf", false, true, 200, some fourBlockMessage⟩).Hash
        = findHashValue (some fourBlockMessage) ∧
      (pklAsset sampleEnv "pkg" [] "pkg/movie.mxf"
          ⟨"movie.mxf", false, true, 200, some fourBlockMessage⟩).Hash
        = hexEncode (sha1Sum fourBlockMessage) ∧
      (pklAsset sampleEnv "pkg" [] "pkg/movie.mxf"
          ⟨"movie.mxf", false, true, 200, some fourBlockMessage⟩).Hash
        = hexEncode (sha1Spec fourBlockMessage) ∧
      (pklAsset sampleEnv "pkg" [] "pkg/movie.mxf"
          ⟨"movie.mxf", false, true, 200, some fourBlockMessage⟩).Hash.length = 40 ∧
      (∀ c ∈ (pklAsset sampleEnv "pkg" [] "pkg/movie.mxf"
          ⟨"movie.mxf", false, true, 200, some fourBlockMessage⟩).Hash.data,
        c ∈ "0123456789abcdef".data) ∧
      (fourBlockMessage = [] →
        (pklAsset sampleEnv "pkg" [] "pkg/movie.mxf"
          ⟨"movie.mxf", false, true, 200, some fourBlockMessage⟩).Hash
          = "da39a3ee5e6b4b0d3255bfef95601890afd80709") ∧
      (fourBlockMessage = asciiBytes "abc" →
        (pklAsset sampleEnv "pkg" [] "pkg/movie.mxf"
          ⟨"movie.mxf", false, true, 200, some fourBlockMessage⟩).Hash
          = "a9993e364706816aba3e25717850c26c9cd0d89d") ∧
      (fourBlockMessage = fipsTwoBlockMessage →
        (pklAsset sampleEnv "pkg" [] "pkg/movie.mxf"
          ⟨"movie.mxf", false, true, 200, some fourBlockMessage⟩).Hash
          = "84983e441c3bd26ebaae4aa1f95129e5e54670f1") ∧
      (fourBlockMessage = fourBlockMessage →
        (pklAsset sampleEnv "pkg" [] "pkg/movie.mxf"
          ⟨"movie.mxf", false, true, 200, some fourBlockMessage⟩).Hash
          = "e61cfffe0d9195a525fc6cf06ca2d77119c24a40") :=
  asset_hash_sha1 sampleEnv "pkg" [] movieTree
    ("pkg/movie.mxf", ⟨"movie.mxf", false, true, 200, some fourBlockMessage⟩) fourBlockMessage
    (by decide) rfl

end Manifest
